import Mathlib

/-!
# SampleJoin: the weighted vertex of the join index (`jefastVertex.h`)

A shallow embedding of `JefastVertex` and its two enumerators: vectors are lists, the
nullable weight vector is an `Option`, an enumerator is its `int` position, and every
operation that can hit an out-of-range access, a null dereference, an invalid iterator
or a signed overflow returns `none` there. `std::sort` is a parameter of `sort`, bound by
what the C++ standard promises of it; `std_sort_libstdcxx` transcribes the routine of
libstdc++ (GCC 12, `bits/stl_algo.h` and `bits/stl_heap.h`).
-/

namespace SampleJoin

/-- Modelled from the spec: `DatabaseSharedTypes.h`, which declares `weight_t` and `jfkey_t`, is
not among the sources. The spec (section 3) gives a weight as a non-negative 64-bit integer: here
a `Nat` below `WMOD = 2 ^ 64`, with wrap-around arithmetic (`wadd`, `wsub`). It gives a record id
as a signed 64-bit integer; the vertex only compares ids for equality and stores the constant
`-1`, so `Int` is exact for them. -/
def WMOD : Nat := 18446744073709551616

/-- Addition in `weight_t` (wraps at `2 ^ 64`). -/
def wadd (a b : Nat) : Nat := (a + b) % WMOD

/-- Subtraction in `weight_t` (wraps at `2 ^ 64`). -/
def wsub (a b : Nat) : Nat := (a + (WMOD - b % WMOD)) % WMOD

/-- The data members of `JefastVertex`; `mp_matching_rhs_record_weight = none` is the null
pointer (default-weight mode). -/
structure JefastVertex where
  m_weight : Nat
  m_matching_lhs_record_ids : List Int
  m_matching_rhs_record_ids : List Int
  mp_matching_rhs_record_weight : Option (List Nat)
deriving DecidableEq, Repr

/-- `get_RHS_outdegree`. -/
def JefastVertex.get_RHS_outdegree (v : JefastVertex) : Nat :=
  v.m_matching_rhs_record_ids.length

/-- The loop of `std::upper_bound` (binary search over `[first, first + len)`): `fuel` bounds the
number of halvings. -/
def upper_bound_loop : Nat → List Nat → Nat → Nat → Nat → Nat
  | 0, _, _, first, _ => first
  | fuel + 1, ws, val, first, len =>
    if len = 0 then first
    else
      let half := len / 2
      let middle := first + half
      if val < ws.getD middle 0 then upper_bound_loop fuel ws val first half
      else upper_bound_loop fuel ws val (middle + 1) (len - half - 1)

/-- `std::upper_bound(ws.begin(), ws.end(), val) - ws.begin()`: the search halves a non-empty
range at every step, so `ws.length` steps are enough. -/
def upper_bound (ws : List Nat) (val : Nat) : Nat :=
  upper_bound_loop ws.length ws val 0 ws.length

/-- What `get_records` leaves behind: the in/out residual, the record id, the weight written
through `record_weight`, and the position that was chosen (the local `index`; position 0 in the
single-record case). -/
structure GetRecordsResult where
  inout_weight_condition : Nat
  out_record_id : Int
  record_weight : Nat
  index : Nat
deriving DecidableEq, Repr

/-- The weight of the record at position `index` as the code decodes it from the prefix sums
(`get_records`, lines 196-200; `adjust_rhs_record_weight_with_sum`, lines 146-153):
`m_weight - back()` at the last position, `at(index + 1) - at(index)` elsewhere. -/
def record_weight_at (ws : List Nat) (m_weight : Nat) (index : Nat) : Option Nat :=
  if index = ws.length - 1 then (ws.getLast?).map (fun back => wsub m_weight back)
  else do
    let nxt ← ws[index + 1]?
    let cur ← ws[index]?
    pure (wsub nxt cur)

/-- The decoded weight of position `index` of a vertex (none in default-weight mode). -/
def JefastVertex.weight_of (v : JefastVertex) (index : Nat) : Option Nat :=
  match v.mp_matching_rhs_record_weight with
  | none => none
  | some ws => record_weight_at ws v.m_weight index

/-- `JefastVertex::get_records`. -/
def JefastVertex.get_records (v : JefastVertex) (inout_weight_condition : Nat) :
    Option GetRecordsResult :=
  match v.mp_matching_rhs_record_weight with
  | some ws =>
    if ws.length = 1 then do
      let back ← ws.getLast?
      let id ← v.m_matching_rhs_record_ids[0]?
      pure { inout_weight_condition := inout_weight_condition
             out_record_id := id
             record_weight := wsub v.m_weight back
             index := 0 }
    else
      let ub := upper_bound ws inout_weight_condition
      -- `--w_itr` on `begin()` is invalid
      if ub = 0 then none
      else do
        let index := ub - 1
        let rw ← record_weight_at ws v.m_weight index
        let cur ← ws[index]?
        let id ← v.m_matching_rhs_record_ids[index]?
        pure { inout_weight_condition := wsub inout_weight_condition cur
               out_record_id := id
               record_weight := rw
               index := index }
  | none => do
    let id ← v.m_matching_rhs_record_ids[inout_weight_condition]?
    pure { inout_weight_condition := wsub inout_weight_condition inout_weight_condition
           out_record_id := id
           record_weight := 1
           index := inout_weight_condition }

/-- The loop of `SetupPrefixSum`: every weight is replaced by the running `sum` of the weights
before it. -/
def running_sum_loop : Nat → List Nat → List Nat
  | _, [] => []
  | sum, tmp :: rest => sum :: running_sum_loop (wadd sum tmp) rest

/-- `JefastVertex::SetupPrefixSum`. -/
def JefastVertex.SetupPrefixSum (v : JefastVertex) : Option JefastVertex :=
  match v.mp_matching_rhs_record_weight with
  | none => none
  | some ws => some { v with mp_matching_rhs_record_weight := some (running_sum_loop 0 ws) }

/-- `std::vector::resize(n)` with value-initialised new elements `d`. -/
def resize {α : Type} (l : List α) (n : Nat) (d : α) : List α :=
  l.take n ++ List.replicate (n - l.length) d

/-- First loop of `purge_zero_weights`: move `itr_pos` to the first zero weight, or to the
size. -/
def purge_find_zero : Nat → List Nat → Nat → Nat
  | 0, _, itr_pos => itr_pos
  | fuel + 1, ws, itr_pos =>
    if itr_pos < ws.length then
      if ws.getD itr_pos 0 = 0 then itr_pos
      else purge_find_zero fuel ws (itr_pos + 1)
    else itr_pos

/-- Second loop of `purge_zero_weights`: copy every position with a positive weight down to
`ins_pos`, in place. -/
def purge_compact : Nat → List Int → List Nat → Nat → Nat → List Int × List Nat × Nat
  | 0, ids, ws, ins_pos, _ => (ids, ws, ins_pos)
  | fuel + 1, ids, ws, ins_pos, itr_pos =>
    if itr_pos < ws.length then
      if ws.getD itr_pos 0 > 0 then
        purge_compact fuel (ids.set ins_pos (ids.getD itr_pos 0))
          (ws.set ins_pos (ws.getD itr_pos 0)) (ins_pos + 1) (itr_pos + 1)
      else purge_compact fuel ids ws ins_pos (itr_pos + 1)
    else (ids, ws, ins_pos)

/-- `JefastVertex::purge_zero_weights`; the assertion `weights.size() <= ids.size()` guards the
unchecked reads of the record ids. -/
def JefastVertex.purge_zero_weights (v : JefastVertex) : Option JefastVertex :=
  match v.mp_matching_rhs_record_weight with
  | none => none
  | some ws =>
    if ws.length ≤ v.m_matching_rhs_record_ids.length then
      let ins_pos := purge_find_zero ws.length ws 0
      let itr_pos := ins_pos + 1
      let r :=
        if itr_pos < ws.length then
          purge_compact ws.length v.m_matching_rhs_record_ids ws ins_pos itr_pos
        else (v.m_matching_rhs_record_ids, ws, ins_pos)
      some { v with
        m_matching_rhs_record_ids := resize r.1 r.2.2 0
        mp_matching_rhs_record_weight := some (resize r.2.1 r.2.2 0) }
    else none

/-- The sort buffer entry of `JefastVertex::sort`. -/
structure key_weight_pair where
  key : Int
  weight : Nat
deriving DecidableEq, Repr

/-- The comparator `sort` hands to `std::sort`. -/
def sort_comp (a b : key_weight_pair) : Bool := decide (a.weight > b.weight)

/-- What the C++ standard promises of `std::sort(first, last, comp)`: the range is rearranged
(a permutation) so that no element compares before one that precedes it. Nothing is promised
about the order of equivalent elements. -/
def StdSortContract (std_sort : List key_weight_pair → List key_weight_pair) : Prop :=
  ∀ data, (std_sort data).Perm data ∧
    (std_sort data).Pairwise (fun a b => sort_comp b a = false)

/-- A concrete routine meeting `StdSortContract` (insertion sort by descending weight), used to
run `sort` on examples. -/
def insertion_sort_desc (data : List key_weight_pair) : List key_weight_pair :=
  List.insertionSort (fun a b => a.weight ≥ b.weight) data

/-- `JefastVertex::sort`, over the library routine `std_sort`: one buffer entry per record id is
filled from the two columns (reading past the weights is an error), sorted, and copied back. -/
def JefastVertex.sort (std_sort : List key_weight_pair → List key_weight_pair)
    (v : JefastVertex) : Option JefastVertex :=
  match v.mp_matching_rhs_record_weight with
  | none => none
  | some ws =>
    if v.m_matching_rhs_record_ids.length ≤ ws.length then
      let data := std_sort (List.zipWith key_weight_pair.mk v.m_matching_rhs_record_ids ws)
      some { v with
        m_matching_rhs_record_ids := data.map key_weight_pair.key
        mp_matching_rhs_record_weight :=
          some (data.map key_weight_pair.weight ++ ws.drop v.m_matching_rhs_record_ids.length) }
    else none

/-- `JefastVertex::adjust_rhs_record_weight_with_sum`: the new vertex and the returned weight.
`indexOf` is the position the linear scan stops at (the size when the id is absent). -/
def JefastVertex.adjust_rhs_record_weight_with_sum (v : JefastVertex) (record_id : Int)
    (new_weight : Nat) : Option (JefastVertex × Nat) :=
  let i := v.m_matching_rhs_record_ids.indexOf record_id
  if i < v.m_matching_rhs_record_ids.length then
    match v.mp_matching_rhs_record_weight with
    | none => none
    | some ws =>
      if i = v.m_matching_rhs_record_ids.length - 1 then do
        let cur ← ws[i]?
        let weight_value := wsub v.m_weight cur
        let weight_diff := wsub new_weight weight_value
        let m := wadd v.m_weight weight_diff
        pure ({ v with m_weight := m }, m)
      else do
        let nxt ← ws[i + 1]?
        let cur ← ws[i]?
        let weight_value := wsub nxt cur
        let weight_diff := wsub new_weight weight_value
        let m := wadd v.m_weight weight_diff
        pure ({ v with
                m_weight := m
                mp_matching_rhs_record_weight :=
                  some (ws.take (i + 1) ++ (ws.drop (i + 1)).map (fun t => wadd t weight_diff)) },
              m)
  else some (v, v.m_weight)

/-- `JefastVertex::insert_rhs_record_weight_with_sum`: the new vertex and the returned weight
(`back()` of an empty weight vector is an error). -/
def JefastVertex.insert_rhs_record_weight_with_sum (v : JefastVertex) (record_id : Int)
    (new_weight : Nat) : Option (JefastVertex × Nat) :=
  match v.mp_matching_rhs_record_weight with
  | some ws => do
    let back ← ws.getLast?
    let m := wadd v.m_weight new_weight
    pure ({ v with
            m_weight := m
            m_matching_rhs_record_ids := v.m_matching_rhs_record_ids ++ [record_id]
            mp_matching_rhs_record_weight := some (ws ++ [wadd new_weight back]) },
          m)
  | none =>
    some ({ v with m_matching_rhs_record_ids := v.m_matching_rhs_record_ids ++ [record_id] },
          v.m_weight)

/-- `JefastVertex::delete_rhs_record_weight_with_sum`: the new vertex and the returned weight.
`itr` is the position `std::find` returns; erasing or writing through `end()` is an error. -/
def JefastVertex.delete_rhs_record_weight_with_sum (v : JefastVertex) (record_id : Int) :
    Option (JefastVertex × Nat) :=
  let itr := v.m_matching_rhs_record_ids.indexOf record_id
  match v.mp_matching_rhs_record_weight with
  | none =>
    if itr < v.m_matching_rhs_record_ids.length then
      let m := wsub v.m_weight 1
      some ({ v with
              m_weight := m
              m_matching_rhs_record_ids := v.m_matching_rhs_record_ids.eraseIdx itr },
            m)
    else none
  | some _ => do
    let r ← v.adjust_rhs_record_weight_with_sum record_id 0
    if itr < r.1.m_matching_rhs_record_ids.length then
      pure ({ r.1 with m_matching_rhs_record_ids := r.1.m_matching_rhs_record_ids.set itr (-1) },
            r.1.m_weight)
    else none

/-- The prefix-sum invariant of a weighted vertex with at least one RHS record (spec, section 8):
weights present as `ws`, one per record, starting at 0, non-decreasing, and not above the
total. -/
structure PrefixInv (v : JefastVertex) (ws : List Nat) : Prop where
  present : v.mp_matching_rhs_record_weight = some ws
  len_eq : ws.length = v.m_matching_rhs_record_ids.length
  nonempty : 1 ≤ ws.length
  head_zero : ws.getD 0 0 = 0
  sorted : ws.Sorted (· ≤ ·)
  back_le : ws.getD (ws.length - 1) 0 ≤ v.m_weight

/-- `JefastVertex::JefastVertex()`: no records, total 0 and an empty weight vector. -/
def JefastVertex.empty : JefastVertex := ⟨0, [], [], some []⟩

/-- `JefastVertex::JefastVertex(bool useDefaultWeight)`. -/
def JefastVertex.ofUseDefaultWeight (useDefaultWeight : Bool) : JefastVertex :=
  ⟨0, [], [], if useDefaultWeight then none else some []⟩

/-- `JefastVertex::getWeight`. -/
def JefastVertex.getWeight (v : JefastVertex) : Nat :=
  match v.mp_matching_rhs_record_weight with
  | none => v.get_RHS_outdegree
  | some _ => v.m_weight

/-- `get_LHS_outdegree`. -/
def JefastVertex.get_LHS_outdegree (v : JefastVertex) : Nat :=
  v.m_matching_lhs_record_ids.length

/-- `JefastVertex::insert_lhs_record_ids`. -/
def JefastVertex.insert_lhs_record_ids (v : JefastVertex) (record_id : Int) : JefastVertex :=
  { v with m_matching_lhs_record_ids := v.m_matching_lhs_record_ids ++ [record_id] }

/-- `JefastVertex::delete_lhs_record_ids`: `itr` is the position `std::find` returns, and the
erase is guarded by `itr != end()`. -/
def JefastVertex.delete_lhs_record_ids (v : JefastVertex) (record_id : Int) : JefastVertex :=
  let itr := v.m_matching_lhs_record_ids.indexOf record_id
  if itr < v.m_matching_lhs_record_ids.length then
    { v with m_matching_lhs_record_ids := v.m_matching_lhs_record_ids.eraseIdx itr }
  else v

/-- `JefastVertex::insert_rhs_record_ids`. -/
def JefastVertex.insert_rhs_record_ids (v : JefastVertex) (record_id : Int) : JefastVertex :=
  { v with m_matching_rhs_record_ids := v.m_matching_rhs_record_ids ++ [record_id] }

/-- `JefastVertex::adjust_rhs_record_weight`: the weight vector is first resized to the number
of RHS records, then the first position holding `record_id`, if any, gets the weight and the total
moves by the difference. -/
def JefastVertex.adjust_rhs_record_weight (v : JefastVertex) (record_id : Int) (weight : Nat) :
    Option JefastVertex :=
  match v.mp_matching_rhs_record_weight with
  | none => none
  | some ws0 =>
    let ws := resize ws0 v.get_RHS_outdegree 0
    let i := v.m_matching_rhs_record_ids.indexOf record_id
    if i < v.m_matching_rhs_record_ids.length then do
      let cur ← ws[i]?
      pure { v with
             m_weight := wadd v.m_weight (wsub weight cur)
             mp_matching_rhs_record_weight := some (ws.set i weight) }
    else some { v with mp_matching_rhs_record_weight := some ws }

/-- The largest value of the `int` position `m_idx` of an enumerator. -/
def INT_MAX : Int := 2147483647

/-- Conversion of an `int` to `size_t`, as in `m_idx < size()` and `at(m_idx)`: the value modulo
`2 ^ 64`, so `-1` becomes the largest `size_t`. -/
def int_to_size_t (i : Int) : Nat := (i % 18446744073709551616).toNat

/-- Conversion of a `size_t` to `int`, as in `m_idx += s`: the low 32 bits, read as a signed
number. -/
def size_t_to_int (n : Nat) : Int := ((n : Int) + 2147483648) % 4294967296 - 2147483648

/-- `Step()` on a cursor over a bucket of `size` records: `++m_idx` (undefined at `INT_MAX`), then
`m_idx < size` in `size_t`. -/
def cursor_Step (size : Nat) (m_idx : Int) : Option (Bool × Int) :=
  if m_idx = INT_MAX then none
  else some (decide (int_to_size_t (m_idx + 1) < size), m_idx + 1)

/-- `Step(size_t s)` on a cursor over a bucket of `size` records: `m_idx += s` is computed in
`size_t` and converted back to `int`, then `m_idx < size` in `size_t`. -/
def cursor_Step_s (size : Nat) (m_idx : Int) (s : Nat) : Bool × Int :=
  let m := size_t_to_int ((int_to_size_t m_idx + s) % 18446744073709551616)
  (decide (int_to_size_t m < size), m)

/-- `Step()` called `k + 1` times in a row: what the last call returns and leaves. -/
def cursor_Step_repeat (size : Nat) : Nat → Int → Option (Bool × Int)
  | 0, m_idx => cursor_Step size m_idx
  | k + 1, m_idx => (cursor_Step size m_idx).bind (fun r => cursor_Step_repeat size k r.2)

/-- The state of a `JefastVertexEnumeratorRHS`; the vertex it points to is passed to every
operation. -/
structure JefastVertexEnumeratorRHS where
  m_idx : Int
deriving DecidableEq, Repr

/-- The state of a `JefastVertexEnumeratorLHS`. -/
structure JefastVertexEnumeratorLHS where
  m_idx : Int
deriving DecidableEq, Repr

/-- `JefastVertexEnumeratorRHS::Step()`. -/
def JefastVertexEnumeratorRHS.Step (e : JefastVertexEnumeratorRHS) (v : JefastVertex) :
    Option (Bool × JefastVertexEnumeratorRHS) :=
  (cursor_Step v.m_matching_rhs_record_ids.length e.m_idx).map (fun r => (r.1, ⟨r.2⟩))

/-- `JefastVertexEnumeratorRHS::Step(size_t s)`. -/
def JefastVertexEnumeratorRHS.Step_s (e : JefastVertexEnumeratorRHS) (v : JefastVertex)
    (s : Nat) : Bool × JefastVertexEnumeratorRHS :=
  ((cursor_Step_s v.m_matching_rhs_record_ids.length e.m_idx s).1,
   ⟨(cursor_Step_s v.m_matching_rhs_record_ids.length e.m_idx s).2⟩)

/-- `JefastVertexEnumeratorRHS::Step()` called `k + 1` times in a row: the last call. -/
def JefastVertexEnumeratorRHS.Step_repeat (e : JefastVertexEnumeratorRHS) (v : JefastVertex)
    (k : Nat) : Option (Bool × JefastVertexEnumeratorRHS) :=
  (cursor_Step_repeat v.m_matching_rhs_record_ids.length k e.m_idx).map (fun r => (r.1, ⟨r.2⟩))

/-- `JefastVertexEnumeratorRHS::setWeight`: the weight vector is resized to the number of RHS
records, the total moves by `w` minus the stored weight, and the stored weight becomes `w`. -/
def JefastVertexEnumeratorRHS.setWeight (e : JefastVertexEnumeratorRHS) (v : JefastVertex)
    (w : Nat) : Option JefastVertex :=
  match v.mp_matching_rhs_record_weight with
  | none => none
  | some ws0 =>
    let ws := resize ws0 v.get_RHS_outdegree 0
    do
      let cur ← ws[int_to_size_t e.m_idx]?
      pure { v with
             m_weight := wadd v.m_weight (wsub w cur)
             mp_matching_rhs_record_weight := some (ws.set (int_to_size_t e.m_idx) w) }

/-- `JefastVertexEnumeratorRHS::getWeight`: `at(m_idx)` on the weights. -/
def JefastVertexEnumeratorRHS.getWeight (e : JefastVertexEnumeratorRHS) (v : JefastVertex) :
    Option Nat :=
  match v.mp_matching_rhs_record_weight with
  | none => none
  | some ws => ws[int_to_size_t e.m_idx]?

/-- `JefastVertexEnumeratorLHS::Step()`. -/
def JefastVertexEnumeratorLHS.Step (e : JefastVertexEnumeratorLHS) (v : JefastVertex) :
    Option (Bool × JefastVertexEnumeratorLHS) :=
  (cursor_Step v.m_matching_lhs_record_ids.length e.m_idx).map (fun r => (r.1, ⟨r.2⟩))

/-- `JefastVertexEnumeratorLHS::Step(size_t s)`. -/
def JefastVertexEnumeratorLHS.Step_s (e : JefastVertexEnumeratorLHS) (v : JefastVertex)
    (s : Nat) : Bool × JefastVertexEnumeratorLHS :=
  ((cursor_Step_s v.m_matching_lhs_record_ids.length e.m_idx s).1,
   ⟨(cursor_Step_s v.m_matching_lhs_record_ids.length e.m_idx s).2⟩)

/-- `JefastVertexEnumeratorLHS::Step()` called `k + 1` times in a row: the last call. -/
def JefastVertexEnumeratorLHS.Step_repeat (e : JefastVertexEnumeratorLHS) (v : JefastVertex)
    (k : Nat) : Option (Bool × JefastVertexEnumeratorLHS) :=
  (cursor_Step_repeat v.m_matching_lhs_record_ids.length k e.m_idx).map (fun r => (r.1, ⟨r.2⟩))

/-- One call of the weight-assignment phase: appending an RHS record id, `adjust_rhs_record_weight`
on a record id, or `setWeight` through an RHS enumerator. -/
inductive BuildCall where
  | insert_rhs_record_ids (record_id : Int)
  | adjust_rhs_record_weight (record_id : Int) (weight : Nat)
  | setWeight (e : JefastVertexEnumeratorRHS) (w : Nat)
deriving DecidableEq, Repr

/-- The effect of one call on the vertex. -/
def BuildCall.run (v : JefastVertex) : BuildCall → Option JefastVertex
  | .insert_rhs_record_ids record_id => some (v.insert_rhs_record_ids record_id)
  | .adjust_rhs_record_weight record_id weight => v.adjust_rhs_record_weight record_id weight
  | .setWeight e w => e.setWeight v w

/-- A sequence of calls, run in order. -/
def run_calls : List BuildCall → JefastVertex → Option JefastVertex
  | [], v => some v
  | c :: cs, v => (c.run v).bind (run_calls cs)

/-- `*(first + i)` on the sort buffer of `std::sort`; the routines below only read inside the
buffer. -/
def buf_at (a : List key_weight_pair) (i : Nat) : key_weight_pair := a.getD i ⟨0, 0⟩

/-- `std::iter_swap` on two positions of the buffer. -/
def iter_swap (a : List key_weight_pair) (i j : Nat) : List key_weight_pair :=
  (a.set i (buf_at a j)).set j (buf_at a i)

/-- libstdc++ `__move_median_to_first` (`bits/stl_algo.h`). -/
def move_median_to_first (a : List key_weight_pair) (result ia ib ic : Nat) :
    List key_weight_pair :=
  if sort_comp (buf_at a ia) (buf_at a ib) then
    if sort_comp (buf_at a ib) (buf_at a ic) then iter_swap a result ib
    else if sort_comp (buf_at a ia) (buf_at a ic) then iter_swap a result ic
    else iter_swap a result ia
  else if sort_comp (buf_at a ia) (buf_at a ic) then iter_swap a result ia
  else if sort_comp (buf_at a ib) (buf_at a ic) then iter_swap a result ic
  else iter_swap a result ib

/-- The loop of libstdc++ `__unguarded_linear_insert`: entries that `val` compares before move up
one place; the result is the buffer and the final `last`. -/
def unguarded_linear_insert_loop (val : key_weight_pair) :
    Nat → List key_weight_pair → Nat → Nat → List key_weight_pair × Nat
  | 0, a, last, _ => (a, last)
  | fuel + 1, a, last, next =>
    if sort_comp val (buf_at a next) then
      unguarded_linear_insert_loop val fuel (a.set last (buf_at a next)) next (next - 1)
    else (a, last)

/-- libstdc++ `__unguarded_linear_insert`. -/
def unguarded_linear_insert (a : List key_weight_pair) (last : Nat) : List key_weight_pair :=
  let val := buf_at a last
  let r := unguarded_linear_insert_loop val a.length a last (last - 1)
  r.1.set r.2 val

/-- `std::move_backward(first, i, i + 1)`: the entries of `[first, i)` move up one place. -/
def move_backward_one (a : List key_weight_pair) (first i : Nat) : List key_weight_pair :=
  a.take (first + 1) ++ (a.drop first).take (i - first) ++ a.drop (i + 1)

/-- The `for` loop of libstdc++ `__insertion_sort`, from position `i` to `last`. -/
def insertion_sort_loop (first last : Nat) :
    Nat → List key_weight_pair → Nat → List key_weight_pair
  | 0, a, _ => a
  | fuel + 1, a, i =>
    if i = last then a
    else if sort_comp (buf_at a i) (buf_at a first) then
      let val := buf_at a i
      insertion_sort_loop first last fuel ((move_backward_one a first i).set first val) (i + 1)
    else insertion_sort_loop first last fuel (unguarded_linear_insert a i) (i + 1)

/-- libstdc++ `__insertion_sort` on `[first, last)`. -/
def insertion_sort (a : List key_weight_pair) (first last : Nat) : List key_weight_pair :=
  if first = last then a else insertion_sort_loop first last (last - first) a (first + 1)

/-- The `for` loop of libstdc++ `__unguarded_insertion_sort`. -/
def unguarded_insertion_sort_loop (last : Nat) :
    Nat → List key_weight_pair → Nat → List key_weight_pair
  | 0, a, _ => a
  | fuel + 1, a, i =>
    if i = last then a
    else unguarded_insertion_sort_loop last fuel (unguarded_linear_insert a i) (i + 1)

/-- libstdc++ `__unguarded_insertion_sort` on `[first, last)`. -/
def unguarded_insertion_sort (a : List key_weight_pair) (first last : Nat) :
    List key_weight_pair :=
  unguarded_insertion_sort_loop last (last - first + 1) a first

/-- libstdc++ `__final_insertion_sort`, with `_S_threshold = 16`. -/
def final_insertion_sort (a : List key_weight_pair) (first last : Nat) : List key_weight_pair :=
  if last - first > 16 then
    unguarded_insertion_sort (insertion_sort a first (first + 16)) (first + 16) last
  else insertion_sort a first last

/-- First inner loop of libstdc++ `__unguarded_partition`: `while (comp(first, pivot)) ++first`. -/
def partition_scan_up (a : List key_weight_pair) (pivot : Nat) : Nat → Nat → Nat
  | 0, first => first
  | fuel + 1, first =>
    if sort_comp (buf_at a first) (buf_at a pivot) then partition_scan_up a pivot fuel (first + 1)
    else first

/-- Second inner loop of libstdc++ `__unguarded_partition`: `while (comp(pivot, last)) --last`. -/
def partition_scan_down (a : List key_weight_pair) (pivot : Nat) : Nat → Nat → Nat
  | 0, last => last
  | fuel + 1, last =>
    if sort_comp (buf_at a pivot) (buf_at a last) then partition_scan_down a pivot fuel (last - 1)
    else last

/-- The outer loop of libstdc++ `__unguarded_partition`: the buffer and the returned `first`. -/
def unguarded_partition (pivot : Nat) :
    Nat → List key_weight_pair → Nat → Nat → List key_weight_pair × Nat
  | 0, a, first, _ => (a, first)
  | fuel + 1, a, first, last =>
    let first1 := partition_scan_up a pivot a.length first
    let last1 := partition_scan_down a pivot a.length (last - 1)
    if first1 < last1 then unguarded_partition pivot fuel (iter_swap a first1 last1) (first1 + 1) last1
    else (a, first1)

/-- libstdc++ `__unguarded_partition_pivot`: the buffer and the cut. -/
def unguarded_partition_pivot (a : List key_weight_pair) (first last : Nat) :
    List key_weight_pair × Nat :=
  let mid := first + (last - first) / 2
  let a1 := move_median_to_first a first (first + 1) mid (last - 1)
  unguarded_partition first a1.length a1 (first + 1) last

/-- The loop of libstdc++ `__push_heap` (`bits/stl_heap.h`): the buffer and the final hole. -/
def push_heap_loop (first topIndex : Nat) (value : key_weight_pair) :
    Nat → List key_weight_pair → Nat → List key_weight_pair × Nat
  | 0, a, holeIndex => (a, holeIndex)
  | fuel + 1, a, holeIndex =>
    let parent := (holeIndex - 1) / 2
    if holeIndex > topIndex ∧ sort_comp (buf_at a (first + parent)) value = true then
      push_heap_loop first topIndex value fuel
        (a.set (first + holeIndex) (buf_at a (first + parent))) parent
    else (a, holeIndex)

/-- libstdc++ `__push_heap`. -/
def push_heap (a : List key_weight_pair) (first holeIndex topIndex : Nat)
    (value : key_weight_pair) : List key_weight_pair :=
  let r := push_heap_loop first topIndex value a.length a holeIndex
  r.1.set (first + r.2) value

/-- The `while` loop of libstdc++ `__adjust_heap`: the buffer, the hole and `secondChild`. -/
def adjust_heap_loop (first len : Nat) :
    Nat → List key_weight_pair → Nat → Nat → List key_weight_pair × Nat × Nat
  | 0, a, holeIndex, secondChild => (a, holeIndex, secondChild)
  | fuel + 1, a, holeIndex, secondChild =>
    if secondChild < (len - 1) / 2 then
      let c := 2 * (secondChild + 1)
      let c1 :=
        if sort_comp (buf_at a (first + c)) (buf_at a (first + (c - 1))) then c - 1 else c
      adjust_heap_loop first len fuel (a.set (first + holeIndex) (buf_at a (first + c1))) c1 c1
    else (a, holeIndex, secondChild)

/-- libstdc++ `__adjust_heap`; `len` is a signed distance, so `(len - 2) / 2` is computed in
the integers. -/
def adjust_heap (a : List key_weight_pair) (first holeIndex len : Nat)
    (value : key_weight_pair) : List key_weight_pair :=
  let r := adjust_heap_loop first len a.length a holeIndex holeIndex
  if len % 2 = 0 ∧ (r.2.2 : Int) = ((len : Int) - 2) / 2 then
    let c := 2 * (r.2.2 + 1)
    push_heap (r.1.set (first + r.2.1) (buf_at r.1 (first + (c - 1)))) first (c - 1) holeIndex
      value
  else push_heap r.1 first r.2.1 holeIndex value

/-- libstdc++ `__pop_heap` on the heap `[first, last)` with the result slot `result`. -/
def pop_heap (a : List key_weight_pair) (first last result : Nat) : List key_weight_pair :=
  let value := buf_at a result
  adjust_heap (a.set result (buf_at a first)) first 0 (last - first) value

/-- The loop of libstdc++ `__make_heap`, from `parent` down to 0. -/
def make_heap_loop (first len : Nat) : Nat → List key_weight_pair → Nat → List key_weight_pair
  | 0, a, _ => a
  | fuel + 1, a, parent =>
    let a1 := adjust_heap a first parent len (buf_at a (first + parent))
    if parent = 0 then a1 else make_heap_loop first len fuel a1 (parent - 1)

/-- libstdc++ `__make_heap` on `[first, last)`. -/
def make_heap (a : List key_weight_pair) (first last : Nat) : List key_weight_pair :=
  if last - first < 2 then a
  else make_heap_loop first (last - first) (last - first) a ((last - first - 2) / 2)

/-- libstdc++ `__sort_heap` on `[first, last)`. -/
def sort_heap (first : Nat) : Nat → List key_weight_pair → Nat → List key_weight_pair
  | 0, a, _ => a
  | fuel + 1, a, last =>
    if last - first > 1 then sort_heap first fuel (pop_heap a first (last - 1) (last - 1)) (last - 1)
    else a

/-- The `for` loop of libstdc++ `__heap_select`. -/
def heap_select_loop (first middle last : Nat) :
    Nat → List key_weight_pair → Nat → List key_weight_pair
  | 0, a, _ => a
  | fuel + 1, a, i =>
    if i < last then
      if sort_comp (buf_at a i) (buf_at a first) then
        heap_select_loop first middle last fuel (pop_heap a first middle i) (i + 1)
      else heap_select_loop first middle last fuel a (i + 1)
    else a

/-- The heap sort libstdc++ falls back to (`std::__partial_sort` in `bits/stl_algo.h`):
`__heap_select` followed by `__sort_heap`. -/
def heap_select_sort (a : List key_weight_pair) (first middle last : Nat) : List key_weight_pair :=
  let a1 := heap_select_loop first middle last (last - middle) (make_heap a first middle) middle
  sort_heap first (middle - first) a1 middle

/-- libstdc++ `__introsort_loop`; every round of its `while` loop lowers `depth_limit` by one,
so the loop is a recursion on `depth_limit`. -/
def introsort_loop : Nat → List key_weight_pair → Nat → Nat → List key_weight_pair
  | 0, a, first, last => if last - first > 16 then heap_select_sort a first last last else a
  | depth_limit + 1, a, first, last =>
    if last - first > 16 then
      let r := unguarded_partition_pivot a first last
      introsort_loop depth_limit (introsort_loop depth_limit r.1 r.2 last) first r.2
    else a

/-- Halving loop computing the position of the highest set bit of `n`. -/
def lg_loop : Nat → Nat → Nat
  | 0, _ => 0
  | fuel + 1, n => if 2 ≤ n then lg_loop fuel (n / 2) + 1 else 0

/-- libstdc++ `std::__lg(n)`, the position of the highest set bit of `n` (for `1 ≤ n`). -/
def lg (n : Nat) : Nat := lg_loop n n

/-- The routine `std::sort(first, last, comp)` of libstdc++ (GCC 12, `bits/stl_algo.h`) on the
sort buffer, with the comparator of `JefastVertex::sort`. -/
def std_sort_libstdcxx (data : List key_weight_pair) : List key_weight_pair :=
  if data.length = 0 then data
  else final_insertion_sort (introsort_loop (lg data.length * 2) data 0 data.length) 0
    data.length

/-- The total of a vertex equals the sum of its stored weights in `weight_t`, and no weight is
stored beyond the record ids. -/
def TotalTracksWeights (v : JefastVertex) : Prop :=
  ∃ ws, v.mp_matching_rhs_record_weight = some ws ∧ v.m_weight = ws.sum % WMOD ∧
    ws.length ≤ v.m_matching_rhs_record_ids.length

/-! # Lemmas -/

/-! ## Arithmetic and list helpers -/

theorem wsub_of_le {a b : Nat} (hb : b ≤ a) (ha : a < WMOD) : wsub a b = a - b := by
  simp only [wsub, WMOD] at *
  omega

theorem getElem?_eq_some_getD {α : Type} (l : List α) (i : Nat) (d : α) (h : i < l.length) :
    l[i]? = some (l.getD i d) := by
  rw [List.getD_eq_getElem _ _ h, List.getElem?_eq_getElem h]

theorem getLast?_eq_some_getD {α : Type} (l : List α) (d : α) (h : 0 < l.length) :
    l.getLast? = some (l.getD (l.length - 1) d) := by
  rw [List.getLast?_eq_getElem?]
  exact getElem?_eq_some_getD l _ d (by omega)

theorem sorted_getD_le {ws : List Nat} (h : ws.Sorted (· ≤ ·)) {i j : Nat} (hij : i ≤ j)
    (hj : j < ws.length) : ws.getD i 0 ≤ ws.getD j 0 := by
  have hi : i < ws.length := lt_of_le_of_lt hij hj
  rw [List.getD_eq_getElem _ _ hi, List.getD_eq_getElem _ _ hj]
  rcases Nat.eq_or_lt_of_le hij with h1 | h1
  · subst h1; exact le_rfl
  · exact (List.pairwise_iff_getElem.mp h) i j hi hj h1

/-- The decoded weight at the last position. -/
theorem record_weight_at_last (ws : List Nat) (m i : Nat) (hn : 0 < ws.length)
    (hi : i = ws.length - 1) :
    record_weight_at ws m i = some (wsub m (ws.getD (ws.length - 1) 0)) := by
  simp only [record_weight_at, hi, if_true, getLast?_eq_some_getD ws 0 hn, Option.map_some']

/-- The decoded weight at a position that is not the last one. -/
theorem record_weight_at_inner (ws : List Nat) (m i : Nat) (hi : i + 1 < ws.length) :
    record_weight_at ws m i = some (wsub (ws.getD (i + 1) 0) (ws.getD i 0)) := by
  have h1 : i ≠ ws.length - 1 := by omega
  simp only [record_weight_at, h1, if_false, getElem?_eq_some_getD ws (i + 1) 0 hi,
    getElem?_eq_some_getD ws i 0 (by omega : i < ws.length), Option.bind_eq_bind,
    Option.some_bind, Option.pure_def]

/-! ## Binary search -/

theorem upper_bound_loop_spec (ws : List Nat) (val : Nat) (hs : ws.Sorted (· ≤ ·)) :
    ∀ (fuel first len : Nat), len ≤ fuel → first + len ≤ ws.length →
      (∀ i, i < first → ws.getD i 0 ≤ val) →
      (∀ i, first + len ≤ i → i < ws.length → val < ws.getD i 0) →
      (upper_bound_loop fuel ws val first len ≤ ws.length ∧
       (∀ i, i < upper_bound_loop fuel ws val first len → ws.getD i 0 ≤ val) ∧
       (∀ i, upper_bound_loop fuel ws val first len ≤ i → i < ws.length → val < ws.getD i 0)) := by
  intro fuel
  induction fuel with
  | zero =>
    intro first len hf hb hlo hhi
    have : len = 0 := by omega
    subst this
    simp only [upper_bound_loop]
    exact ⟨by omega, hlo, fun i h1 h2 => hhi i (by omega) h2⟩
  | succ fuel ih =>
    intro first len hf hb hlo hhi
    simp only [upper_bound_loop]
    by_cases hl : len = 0
    · subst hl
      simp only [if_true]
      exact ⟨by omega, hlo, fun i h1 h2 => hhi i (by omega) h2⟩
    · simp only [hl, if_false]
      by_cases hc : val < ws.getD (first + len / 2) 0
      · simp only [hc, if_true]
        apply ih first (len / 2) (by omega) (by omega) hlo
        intro i h1 h2
        exact lt_of_lt_of_le hc (sorted_getD_le hs h1 h2)
      · simp only [hc, if_false]
        apply ih (first + len / 2 + 1) (len - len / 2 - 1) (by omega) (by omega)
        · intro i h1
          have : ws.getD i 0 ≤ ws.getD (first + len / 2) 0 :=
            sorted_getD_le hs (by omega) (by omega)
          omega
        · intro i h1 h2
          exact hhi i (by omega) h2

theorem upper_bound_spec (ws : List Nat) (val : Nat) (hs : ws.Sorted (· ≤ ·)) :
    upper_bound ws val ≤ ws.length ∧
    (∀ i, i < upper_bound ws val → ws.getD i 0 ≤ val) ∧
    (∀ i, upper_bound ws val ≤ i → i < ws.length → val < ws.getD i 0) := by
  unfold upper_bound
  exact upper_bound_loop_spec ws val hs ws.length 0 ws.length le_rfl (by omega)
    (fun i h => absurd h (Nat.not_lt_zero i)) (fun i h1 h2 => by omega)

/-! ## `get_records` on a weighted vertex -/

theorem get_records_pick (v : JefastVertex) (ws : List Nat) (r : Nat)
    (hinv : PrefixInv v ws) (hW : v.m_weight < WMOD) (hr : r < v.m_weight) :
    ∃ i, i < ws.length ∧ ws.getD i 0 ≤ r ∧ (∀ j, i < j → j < ws.length → r < ws.getD j 0) ∧
      v.get_records r = some
        { inout_weight_condition := r - ws.getD i 0
          out_record_id := v.m_matching_rhs_record_ids.getD i 0
          record_weight :=
            if i < ws.length - 1 then ws.getD (i + 1) 0 - ws.getD i 0
            else v.m_weight - ws.getD (ws.length - 1) 0
          index := i } ∧
      r - ws.getD i 0 <
        (if i < ws.length - 1 then ws.getD (i + 1) 0 - ws.getD i 0
         else v.m_weight - ws.getD (ws.length - 1) 0) := by
  obtain ⟨hpres, hlen, hne, hz, hs, hb⟩ := hinv
  by_cases h1 : ws.length = 1
  · refine ⟨0, by omega, by omega, fun j h2 h3 => by omega, ?_, ?_⟩
    · have hl := getLast?_eq_some_getD ws 0 (by omega)
      have hid := getElem?_eq_some_getD v.m_matching_rhs_record_ids 0 0 (by omega)
      simp only [h1, Nat.sub_self] at hl
      simp only [JefastVertex.get_records, hpres, h1, if_true, hl, hid, Option.bind_eq_bind,
        Option.some_bind, Option.pure_def, hz, Nat.sub_zero, Nat.lt_irrefl, if_false]
      rw [wsub_of_le (Nat.zero_le _) hW]
      simp
    · simp only [h1, Nat.sub_self, Nat.lt_irrefl, if_false, hz]
      omega
  · obtain ⟨hp1, hp2, hp3⟩ := upper_bound_spec ws r hs
    have hp0 : upper_bound ws r ≠ 0 := by
      intro h0
      have := hp3 0 (by omega) (by omega)
      omega
    have hi : upper_bound ws r - 1 < ws.length := by omega
    have hcur := hp2 (upper_bound ws r - 1) (by omega)
    have hback : ∀ j, j < ws.length → ws.getD j 0 ≤ v.m_weight := fun j hj =>
      le_trans (sorted_getD_le hs (by omega) (by omega)) hb
    refine ⟨upper_bound ws r - 1, hi, hcur, fun j h2 h3 => hp3 j (by omega) h3, ?_, ?_⟩
    · have hid := getElem?_eq_some_getD v.m_matching_rhs_record_ids (upper_bound ws r - 1) 0
        (by omega)
      have hc := getElem?_eq_some_getD ws (upper_bound ws r - 1) 0 hi
      by_cases h2 : upper_bound ws r - 1 = ws.length - 1
      · have h3 : ¬ (upper_bound ws r - 1 < ws.length - 1) := by omega
        simp only [JefastVertex.get_records, hpres, h1, if_false, hp0, hid, hc,
          record_weight_at_last ws _ _ (by omega) h2,
          Option.bind_eq_bind, Option.some_bind, Option.pure_def, h3]
        rw [wsub_of_le hb hW, wsub_of_le hcur (by omega)]
      · have h3 : upper_bound ws r - 1 < ws.length - 1 := by omega
        simp only [JefastVertex.get_records, hpres, h1, if_false, hp0, hid, hc,
          record_weight_at_inner ws _ _ (by omega : upper_bound ws r - 1 + 1 < ws.length),
          Option.bind_eq_bind, Option.some_bind, Option.pure_def, h3, if_true]
        rw [wsub_of_le (sorted_getD_le hs (by omega) (by omega))
          (lt_of_le_of_lt (hback _ (by omega)) hW), wsub_of_le hcur (by omega)]
    · by_cases h2 : upper_bound ws r - 1 < ws.length - 1
      · simp only [h2, if_true]
        have := hp3 (upper_bound ws r - 1 + 1) (by omega) (by omega)
        omega
      · simp only [h2, if_false]
        have h3 : upper_bound ws r - 1 = ws.length - 1 := by omega
        rw [h3] at hcur ⊢
        omega

/-! ## Exact prefix sums -/

theorem sum_take_succ_getD (pw : List Nat) (i : Nat) (hi : i < pw.length) :
    (pw.take (i + 1)).sum = (pw.take i).sum + pw.getD i 0 := by
  rw [List.sum_take_succ pw i hi, List.getD_eq_getElem _ _ hi]

theorem sum_take_mono (pw : List Nat) : Monotone (fun i => (pw.take i).sum) := by
  apply monotone_nat_of_le_succ
  intro n
  by_cases hn : n < pw.length
  · show (pw.take n).sum ≤ (pw.take (n + 1)).sum
    rw [sum_take_succ_getD pw n hn]
    omega
  · show (pw.take n).sum ≤ (pw.take (n + 1)).sum
    rw [List.take_of_length_le (by omega : pw.length ≤ n),
      List.take_of_length_le (by omega : pw.length ≤ n + 1)]

theorem sum_take_le_sum (pw : List Nat) (i : Nat) : (pw.take i).sum ≤ pw.sum := by
  have h := sum_take_mono pw (le_max_left i pw.length)
  simp only [List.take_of_length_le (le_max_right i pw.length)] at h
  exact h

/-- A weight vector holding the exact exclusive prefix sums of `pw`, with total `pw.sum`,
satisfies the prefix-sum invariant. -/
theorem inv_of_exact_sums (v : JefastVertex) (ws pw : List Nat)
    (hpres : v.mp_matching_rhs_record_weight = some ws)
    (hlen : ws.length = v.m_matching_rhs_record_ids.length)
    (hpw : pw.length = ws.length)
    (hpre : ∀ i, i < ws.length → ws.getD i 0 = (pw.take i).sum)
    (htot : v.m_weight = pw.sum) (hne : 1 ≤ ws.length) : PrefixInv v ws := by
  refine ⟨hpres, hlen, hne, ?_, ?_, ?_⟩
  · rw [hpre 0 (by omega)]; simp
  · apply List.pairwise_iff_getElem.mpr
    intro i j hi hj hij
    have h1 := hpre i hi
    have h2 := hpre j hj
    rw [List.getD_eq_getElem _ _ hi] at h1
    rw [List.getD_eq_getElem _ _ hj] at h2
    rw [h1, h2]
    exact sum_take_mono pw (le_of_lt hij)
  · rw [hpre _ (by omega), htot]
    exact sum_take_le_sum pw _

/-- With exact prefix sums the decoded weight of position `i` is `pw[i]`. -/
theorem decoded_weight_eq (ws pw : List Nat) (total : Nat)
    (hpw : pw.length = ws.length)
    (hpre : ∀ i, i < ws.length → ws.getD i 0 = (pw.take i).sum)
    (htot : total = pw.sum) (i : Nat) (hi : i < ws.length) :
    (if i < ws.length - 1 then ws.getD (i + 1) 0 - ws.getD i 0
     else total - ws.getD (ws.length - 1) 0) = pw.getD i 0 := by
  have hstep := sum_take_succ_getD pw i (by omega)
  by_cases h1 : i < ws.length - 1
  · simp only [h1, if_true]
    rw [hpre i hi, hpre (i + 1) (by omega), hstep]
    omega
  · simp only [h1, if_false]
    have h2 : i = ws.length - 1 := by omega
    have h3 : pw.take (i + 1) = pw := List.take_of_length_le (by omega)
    rw [h3] at hstep
    rw [← h2, hpre i hi, htot, hstep]
    omega

/-! ## `SetupPrefixSum` -/

theorem running_sum_loop_length (pw : List Nat) :
    ∀ s, (running_sum_loop s pw).length = pw.length := by
  induction pw with
  | nil => intro s; rfl
  | cons tmp rest ih => intro s; simp [running_sum_loop, ih]

theorem running_sum_loop_getD (pw : List Nat) :
    ∀ (s i : Nat), i < pw.length → s < WMOD →
      (running_sum_loop s pw).getD i 0 = (s + (pw.take i).sum) % WMOD := by
  induction pw with
  | nil => intro s i hi; simp at hi
  | cons tmp rest ih =>
    intro s i hi hs
    cases i with
    | zero =>
      simp only [running_sum_loop, List.getD_cons_zero, List.take_zero, List.sum_nil, Nat.add_zero]
      exact (Nat.mod_eq_of_lt hs).symm
    | succ i =>
      have hi' : i < rest.length := by simpa using hi
      have hw : wadd s tmp < WMOD := Nat.mod_lt _ (by decide)
      simp only [running_sum_loop, List.getD_cons_succ, List.take_succ_cons, List.sum_cons]
      rw [ih (wadd s tmp) i hi' hw]
      simp only [wadd, WMOD]
      omega

/-! ## `purge_zero_weights` -/

theorem getD_map_append_cons {α β : Type} (f : α → β) (X Y : List α) (c : α) (d : β) :
    ((X ++ c :: Y).map f).getD X.length d = f c := by
  induction X with
  | nil => simp
  | cons x X ih => simpa using ih

theorem set_map_append_cons {α β : Type} (f : α → β) (X Y : List α) (b c : α) :
    ((X ++ b :: Y).map f).set X.length (f c) = (X ++ c :: Y).map f := by
  induction X with
  | nil => simp
  | cons x X ih => simp [ih]

theorem resize_map_append {α β : Type} (f : α → β) (X R : List α) (d : β) :
    resize ((X ++ R).map f) X.length d = X.map f := by
  simp [resize, List.take_append_eq_append_take]

theorem purge_find_zero_spec (S : List (Int × Nat))
    (hS : S = [] ∨ ∃ s0 S', S = s0 :: S' ∧ s0.2 = 0) :
    ∀ (P2 P1 : List (Int × Nat)) (fuel : Nat), (∀ p ∈ P2, p.2 ≠ 0) → P2.length ≤ fuel →
      purge_find_zero fuel ((P1 ++ P2 ++ S).map Prod.snd) P1.length = P1.length + P2.length := by
  intro P2
  induction P2 with
  | nil =>
    intro P1 fuel _ _
    cases fuel with
    | zero => simp [purge_find_zero]
    | succ f =>
      rcases hS with h | ⟨s0, S', h, h0⟩
      · subst h
        simp [purge_find_zero]
      · subst h
        have hg := getD_map_append_cons Prod.snd P1 S' s0 0
        simp only [List.append_nil, purge_find_zero, hg, h0, if_true, List.length_nil,
          Nat.add_zero, ite_self]
  | cons p P2 ih =>
    intro P1 fuel hnz hf
    cases fuel with
    | zero => simp at hf
    | succ f =>
      have hp : p.2 ≠ 0 := hnz p (List.mem_cons_self _ _)
      have hg := getD_map_append_cons Prod.snd P1 (P2 ++ S) p 0
      have hlt : P1.length < ((P1 ++ p :: P2 ++ S).map Prod.snd).length := by
        simp only [List.length_map, List.length_append, List.length_cons]; omega
      have e1 : P1 ++ p :: P2 ++ S = P1 ++ p :: (P2 ++ S) := by simp
      have e2 : P1 ++ p :: P2 ++ S = (P1 ++ [p]) ++ P2 ++ S := by simp
      simp only [purge_find_zero, hlt, if_true]
      rw [e1, hg]
      simp only [hp, if_false]
      rw [← e1, e2]
      have := ih (P1 ++ [p]) f (fun q hq => hnz q (List.mem_cons_of_mem _ hq))
        (by simpa using hf)
      simp only [List.length_append, List.length_singleton] at this
      rw [this]
      simp only [List.length_cons]
      omega

theorem purge_compact_spec :
    ∀ (C A B : List (Int × Nat)) (b : Int × Nat) (fuel : Nat), C.length ≤ fuel →
      ∃ R, purge_compact fuel ((A ++ b :: B ++ C).map Prod.fst) ((A ++ b :: B ++ C).map Prod.snd)
          A.length (A.length + (B.length + 1))
        = ((A ++ C.filter (fun p => decide (p.2 ≠ 0)) ++ R).map Prod.fst,
           (A ++ C.filter (fun p => decide (p.2 ≠ 0)) ++ R).map Prod.snd,
           (A ++ C.filter (fun p => decide (p.2 ≠ 0))).length) := by
  intro C
  induction C with
  | nil =>
    intro A B b fuel _
    refine ⟨b :: B, ?_⟩
    cases fuel with
    | zero => simp [purge_compact]
    | succ f => simp [purge_compact]
  | cons c C ih =>
    intro A B b fuel hf
    cases fuel with
    | zero => simp at hf
    | succ f =>
      have hf' : C.length ≤ f := by simpa using hf
      have e1 : A ++ b :: B ++ c :: C = (A ++ b :: B) ++ c :: C := by simp
      have hlen : (A ++ b :: B).length = A.length + (B.length + 1) := by simp
      have hgw := getD_map_append_cons Prod.snd (A ++ b :: B) C c 0
      have hgi := getD_map_append_cons Prod.fst (A ++ b :: B) C c 0
      rw [hlen] at hgw hgi
      have hlt : A.length + (B.length + 1) < ((A ++ b :: B ++ c :: C).map Prod.snd).length := by
        simp only [List.length_map, List.length_append, List.length_cons]; omega
      simp only [purge_compact, hlt, if_true]
      rw [e1, hgw, hgi, ← e1]
      by_cases hc : c.2 = 0
      · have hc' : ¬ (c.2 > 0) := by omega
        simp only [hc', if_false]
        obtain ⟨R, hR⟩ := ih A (B ++ [c]) b f hf'
        refine ⟨R, ?_⟩
        have e2 : A ++ b :: B ++ c :: C = A ++ b :: (B ++ [c]) ++ C := by simp
        have e3 : A.length + (B.length + 1) + 1 = A.length + ((B ++ [c]).length + 1) := by
          simp only [List.length_append, List.length_cons, List.length_nil]; omega
        rw [e2, e3, hR]
        simp [hc]
      · have hc' : c.2 > 0 := by omega
        simp only [hc', if_true]
        have e2 : A ++ b :: B ++ c :: C = A ++ b :: (B ++ c :: C) := by simp
        have hsi := set_map_append_cons Prod.fst A (B ++ c :: C) b c
        have hsw := set_map_append_cons Prod.snd A (B ++ c :: C) b c
        rw [e2, hsi, hsw]
        cases B with
        | nil =>
          obtain ⟨R, hR⟩ := ih (A ++ [c]) [] c f hf'
          refine ⟨R, ?_⟩
          have e4 : A ++ c :: ([] ++ c :: C) = (A ++ [c]) ++ c :: [] ++ C := by simp
          have e5 : A.length + 1 = (A ++ [c]).length := by simp
          have e6 : A.length + (([] : List (Int × Nat)).length + 1) + 1
              = (A ++ [c]).length + (([] : List (Int × Nat)).length + 1) := by simp
          rw [e4, e6, e5, hR]
          simp [hc]
        | cons b' B =>
          obtain ⟨R, hR⟩ := ih (A ++ [c]) (B ++ [c]) b' f hf'
          refine ⟨R, ?_⟩
          have e4 : A ++ c :: (b' :: B ++ c :: C) = (A ++ [c]) ++ b' :: (B ++ [c]) ++ C := by simp
          have e5 : A.length + 1 = (A ++ [c]).length := by simp
          have e6 : A.length + ((b' :: B).length + 1) + 1
              = (A ++ [c]).length + ((B ++ [c]).length + 1) := by
            simp only [List.length_append, List.length_cons, List.length_nil]; omega
          rw [e4, e6, e5, hR]
          simp [hc]

theorem zip_map_fst_map_snd {α β : Type} (L : List (α × β)) :
    List.zip (L.map Prod.fst) (L.map Prod.snd) = L := by
  induction L with
  | nil => rfl
  | cons x L ih => simp [ih]

theorem split_first_zero (L : List (Int × Nat)) :
    ∃ P S, L = P ++ S ∧ (∀ p ∈ P, p.2 ≠ 0) ∧ (S = [] ∨ ∃ s0 S', S = s0 :: S' ∧ s0.2 = 0) := by
  induction L with
  | nil => exact ⟨[], [], rfl, by simp, Or.inl rfl⟩
  | cons x L ih =>
    by_cases hx : x.2 = 0
    · exact ⟨[], x :: L, rfl, by simp, Or.inr ⟨x, L, rfl, hx⟩⟩
    · obtain ⟨P, S, h1, h2, h3⟩ := ih
      refine ⟨x :: P, S, by simp [h1], ?_, h3⟩
      intro p hp
      rcases List.mem_cons.mp hp with h | h
      · subst h; exact hx
      · exact h2 p h

/-- The effect of `purge_zero_weights` on the paired columns of a vertex. -/
theorem purge_zero_weights_pairs (v : JefastVertex) (L : List (Int × Nat))
    (hids : v.m_matching_rhs_record_ids = L.map Prod.fst)
    (hws : v.mp_matching_rhs_record_weight = some (L.map Prod.snd)) :
    v.purge_zero_weights = some { v with
      m_matching_rhs_record_ids := (L.filter (fun p => decide (p.2 ≠ 0))).map Prod.fst
      mp_matching_rhs_record_weight :=
        some ((L.filter (fun p => decide (p.2 ≠ 0))).map Prod.snd) } := by
  obtain ⟨P, S, hL, hP, hS⟩ := split_first_zero L
  have hfz := purge_find_zero_spec S hS P [] (L.map Prod.snd).length hP
    (by rw [hL]; simp)
  simp only [List.nil_append, List.length_nil, Nat.zero_add] at hfz
  rw [← hL] at hfz
  have hfP : P.filter (fun p => decide (p.2 ≠ 0)) = P :=
    List.filter_eq_self.mpr (fun p hp => by simpa using hP p hp)
  have hle : (L.map Prod.snd).length ≤ (L.map Prod.fst).length := by simp
  simp only [JefastVertex.purge_zero_weights, hws, hids, hle, if_true, hfz]
  rcases hS with h | ⟨s0, S', h, h0⟩
  · subst h
    simp only [List.append_nil] at hL
    subst hL
    have hnlt : ¬ (L.length + 1 < (L.map Prod.snd).length) := by simp
    simp only [hnlt, if_false, hfP]
    have r1 := resize_map_append Prod.fst L [] (0 : Int)
    have r2 := resize_map_append Prod.snd L [] (0 : Nat)
    simp only [List.append_nil] at r1 r2
    rw [r1, r2]
  · subst h
    subst hL
    have hF : (P ++ s0 :: S').filter (fun p => decide (p.2 ≠ 0))
        = P ++ S'.filter (fun p => decide (p.2 ≠ 0)) := by
      rw [List.filter_append, hfP, List.filter_cons]
      simp [h0]
    by_cases hlt : P.length + 1 < ((P ++ s0 :: S').map Prod.snd).length
    · obtain ⟨R, hR⟩ := purge_compact_spec S' P [] s0 ((P ++ s0 :: S').map Prod.snd).length
        (by simp only [List.length_map, List.length_append, List.length_cons]; omega)
      have e : P ++ [s0] ++ S' = P ++ s0 :: S' := by simp
      simp only [List.length_nil, Nat.zero_add] at hR
      rw [e] at hR
      simp only [hlt, if_true]
      rw [hR]
      simp only
      rw [resize_map_append, resize_map_append, hF]
    · have hS' : S' = [] := by
        simp only [List.length_map, List.length_append, List.length_cons] at hlt
        exact List.length_eq_zero.mp (by omega)
      subst hS'
      simp only [hlt, if_false]
      rw [hF]
      simp only [List.filter_nil, List.append_nil]
      rw [resize_map_append, resize_map_append]

/-! ## `sort` -/

theorem insertion_sort_desc_contract : StdSortContract insertion_sort_desc := by
  intro data
  haveI : IsTotal key_weight_pair (fun a b => a.weight ≥ b.weight) :=
    ⟨fun a b => Nat.le_total b.weight a.weight⟩
  haveI : IsTrans key_weight_pair (fun a b => a.weight ≥ b.weight) :=
    ⟨fun a b c h1 h2 => Nat.le_trans h2 h1⟩
  refine ⟨List.perm_insertionSort _ data, ?_⟩
  have h := List.sorted_insertionSort (fun a b : key_weight_pair => a.weight ≥ b.weight) data
  refine List.Pairwise.imp ?_ h
  intro a b hab
  simp only [sort_comp, decide_eq_false_iff_not]
  omega

/-- The effect of `sort` on the paired columns of a vertex. -/
theorem sort_pairs (std_sort : List key_weight_pair → List key_weight_pair)
    (hc : StdSortContract std_sort) (v : JefastVertex) (L : List (Int × Nat))
    (hids : v.m_matching_rhs_record_ids = L.map Prod.fst)
    (hws : v.mp_matching_rhs_record_weight = some (L.map Prod.snd)) :
    ∃ K : List (Int × Nat), K.Perm L ∧ (K.map Prod.snd).Pairwise (· ≥ ·) ∧
      v.sort std_sort = some { v with
        m_matching_rhs_record_ids := K.map Prod.fst
        mp_matching_rhs_record_weight := some (K.map Prod.snd) } := by
  obtain ⟨hperm, hsorted⟩ := hc (List.zipWith key_weight_pair.mk (L.map Prod.fst) (L.map Prod.snd))
  have hdata : List.zipWith key_weight_pair.mk (L.map Prod.fst) (L.map Prod.snd)
      = L.map (fun p => key_weight_pair.mk p.1 p.2) := by
    induction L with
    | nil => rfl
    | cons x L ih => simp [ih]
  rw [hdata] at hperm hsorted
  refine ⟨(std_sort (L.map (fun p => key_weight_pair.mk p.1 p.2))).map
    (fun d => (d.key, d.weight)), ?_, ?_, ?_⟩
  · have h := hperm.map (fun d : key_weight_pair => (d.key, d.weight))
    have e : (L.map (fun p => key_weight_pair.mk p.1 p.2)).map
        (fun d : key_weight_pair => (d.key, d.weight)) = L := by
      rw [List.map_map]
      exact List.map_id'' (fun _ => rfl) L
    rw [e] at h
    exact h
  · rw [List.map_map, List.pairwise_map]
    refine List.Pairwise.imp ?_ hsorted
    intro a b hab
    simp only [sort_comp, decide_eq_false_iff_not] at hab
    simp only [Function.comp]
    omega
  · have hle : (L.map Prod.fst).length ≤ (L.map Prod.snd).length := by simp
    simp only [JefastVertex.sort, hws, hids, hle, if_true, hdata, List.map_map]
    have hd : (L.map Prod.snd).drop (L.map Prod.fst).length = [] := by simp
    rw [hd, List.append_nil]
    rfl

/-! ## Finalising a vertex: purge, sort, prefix sums -/

theorem sum_filter_nonzero (L : List (Int × Nat)) :
    ((L.filter (fun p => decide (p.2 ≠ 0))).map Prod.snd).sum = (L.map Prod.snd).sum := by
  induction L with
  | nil => rfl
  | cons x L ih =>
    by_cases hx : x.2 = 0
    · rw [List.filter_cons_of_neg (by simp [hx])]
      simp only [List.map_cons, List.sum_cons, hx, Nat.zero_add]
      exact ih
    · rw [List.filter_cons_of_pos (by simp [hx])]
      simp only [List.map_cons, List.sum_cons, ih]

/-! ## `adjust_rhs_record_weight_with_sum` -/

theorem getD_take_append_map_drop (f : Nat → Nat) :
    ∀ (ws : List Nat) (k j : Nat), j < ws.length →
      (ws.take k ++ (ws.drop k).map f).getD j 0
        = if j < k then ws.getD j 0 else f (ws.getD j 0) := by
  intro ws
  induction ws with
  | nil => intro k j hj; simp at hj
  | cons x ws ih =>
    intro k j hj
    cases k with
    | zero =>
      simp only [List.take_zero, List.drop_zero, List.nil_append, Nat.not_lt_zero, if_false]
      have h1 : j < ((x :: ws).map f).length := by simpa using hj
      rw [List.getD_eq_getElem _ _ h1, List.getD_eq_getElem _ _ hj, List.getElem_map]
    | succ k =>
      cases j with
      | zero => simp
      | succ j =>
        have hj' : j < ws.length := by simpa using hj
        simp only [List.take_succ_cons, List.drop_succ_cons, List.cons_append,
          List.getD_cons_succ, ih k j hj']
        simp

/-- Every stored weight of an invariant vertex is at most the total. -/
theorem PrefixInv.getD_le_total {v : JefastVertex} {ws : List Nat} (hinv : PrefixInv v ws)
    (j : Nat) (hj : j < ws.length) : ws.getD j 0 ≤ v.m_weight :=
  le_trans (sorted_getD_le hinv.sorted (by omega) (by have := hinv.nonempty; omega)) hinv.back_le

/-- What `adjust_rhs_record_weight_with_sum` does to a record that is present: with `old` the
decoded weight of its first position `i` and `d = new_weight - old` in `weight_t`, the weights
after position `i` and the total are shifted by `d`; nothing else changes. -/
theorem adjust_present (v : JefastVertex) (ws : List Nat) (record_id : Int) (new_weight : Nat)
    (hpres : v.mp_matching_rhs_record_weight = some ws)
    (hlen : ws.length = v.m_matching_rhs_record_ids.length)
    (hmem : record_id ∈ v.m_matching_rhs_record_ids) :
    ∃ old ws',
      record_weight_at ws v.m_weight (v.m_matching_rhs_record_ids.indexOf record_id) = some old ∧
      v.adjust_rhs_record_weight_with_sum record_id new_weight
        = some ({ v with
                  m_weight := wadd v.m_weight (wsub new_weight old)
                  mp_matching_rhs_record_weight := some ws' },
                wadd v.m_weight (wsub new_weight old)) ∧
      ws'.length = ws.length ∧
      (∀ j, j < ws.length → ws'.getD j 0
        = if j ≤ v.m_matching_rhs_record_ids.indexOf record_id then ws.getD j 0
          else wadd (ws.getD j 0) (wsub new_weight old)) := by
  have hi : v.m_matching_rhs_record_ids.indexOf record_id < v.m_matching_rhs_record_ids.length :=
    List.indexOf_lt_length.mpr hmem
  unfold JefastVertex.adjust_rhs_record_weight_with_sum
  generalize v.m_matching_rhs_record_ids.indexOf record_id = i at hi ⊢
  have hc := getElem?_eq_some_getD ws i 0 (by omega)
  by_cases hlast : i = v.m_matching_rhs_record_ids.length - 1
  · refine ⟨wsub v.m_weight (ws.getD (ws.length - 1) 0), ws, ?_, ?_, rfl, ?_⟩
    · exact record_weight_at_last ws _ _ (by omega) (by omega)
    · have e : ws.length - 1 = i := by omega
      simp only [hi, if_true, hpres, hlast, Option.bind_eq_bind, Option.some_bind,
        Option.pure_def]
      rw [hlast] at hc
      have hi2 : v.m_matching_rhs_record_ids.length - 1 < v.m_matching_rhs_record_ids.length := by
        omega
      simp only [hc, Option.some_bind, hlen, hpres, hi2, if_true]
    · intro j hj
      have : j ≤ i := by omega
      simp only [this, if_true]
  · refine ⟨wsub (ws.getD (i + 1) 0) (ws.getD i 0),
      ws.take (i + 1) ++ (ws.drop (i + 1)).map
        (fun t => wadd t (wsub new_weight (wsub (ws.getD (i + 1) 0) (ws.getD i 0)))),
      ?_, ?_, ?_, ?_⟩
    · exact record_weight_at_inner ws _ _ (by omega)
    · have hn := getElem?_eq_some_getD ws (i + 1) 0 (by omega)
      simp only [hi, if_true, hpres, hlast, if_false, hc, hn, Option.bind_eq_bind,
        Option.some_bind, Option.pure_def]
    · simp only [List.length_append, List.length_take, List.length_map, List.length_drop]
      omega
    · intro j hj
      rw [getD_take_append_map_drop _ ws _ j hj]
      by_cases h : j ≤ i
      · have h' : j < i + 1 := by omega
        simp only [h, h', if_true]
      · have h' : ¬ (j < i + 1) := by omega
        simp only [h, h', if_false]

/-- Decoded weights after the weights behind position `i` and the total were shifted by
`d = new_weight - old`: position `i` decodes to `new_weight`, every other position as before. -/
theorem shifted_weights (ws ws' : List Nat) (total new_weight old i : Nat)
    (hlen' : ws'.length = ws.length) (hi : i < ws.length) (hnew : new_weight < WMOD)
    (hold : record_weight_at ws total i = some old)
    (hget : ∀ j, j < ws.length → ws'.getD j 0
        = if j ≤ i then ws.getD j 0 else wadd (ws.getD j 0) (wsub new_weight old)) :
    record_weight_at ws' (wadd total (wsub new_weight old)) i = some new_weight ∧
    (∀ j, j < ws.length → j ≠ i →
      record_weight_at ws' (wadd total (wsub new_weight old)) j = record_weight_at ws total j) := by
  constructor
  · by_cases hl : i = ws.length - 1
    · rw [record_weight_at_last ws _ _ (by omega) hl] at hold
      rw [record_weight_at_last ws' _ _ (by omega) (by omega), hlen',
        hget (ws.length - 1) (by omega)]
      have h1 : ws.length - 1 ≤ i := by omega
      simp only [h1, if_true]
      injection hold with hold
      subst hold
      congr 1
      simp only [wadd, wsub, WMOD] at *
      omega
    · rw [record_weight_at_inner ws _ _ (by omega)] at hold
      rw [record_weight_at_inner ws' _ _ (by omega), hget i hi, hget (i + 1) (by omega)]
      have h1 : ¬ (i + 1 ≤ i) := by omega
      simp only [le_refl, h1, if_true, if_false]
      injection hold with hold
      subst hold
      congr 1
      simp only [wadd, wsub, WMOD] at *
      omega
  · intro j hj hji
    by_cases hl : j = ws.length - 1
    · rw [record_weight_at_last ws _ _ (by omega) hl,
        record_weight_at_last ws' _ _ (by omega) (by omega), hlen',
        hget (ws.length - 1) (by omega)]
      have h1 : ¬ (ws.length - 1 ≤ i) := by omega
      simp only [h1, if_false]
      congr 1
      simp only [wadd, wsub, WMOD]
      omega
    · rw [record_weight_at_inner ws _ _ (by omega),
        record_weight_at_inner ws' _ _ (by omega), hget j hj, hget (j + 1) (by omega)]
      by_cases h : j + 1 ≤ i
      · have h' : j ≤ i := by omega
        simp only [h, h', if_true]
      · have h' : ¬ (j ≤ i) := by omega
        simp only [h, h', if_false]
        congr 1
        simp only [wadd, wsub, WMOD]
        omega

/-- On an invariant vertex the decoded weight is the plain difference and is at most the
total. -/
theorem PrefixInv.record_weight_at_eq {v : JefastVertex} {ws : List Nat} (hinv : PrefixInv v ws)
    (hW : v.m_weight < WMOD) (i : Nat) (hi : i < ws.length) :
    ∃ old, record_weight_at ws v.m_weight i = some old ∧ old ≤ v.m_weight ∧
      old = (if i < ws.length - 1 then ws.getD (i + 1) 0 - ws.getD i 0
             else v.m_weight - ws.getD (ws.length - 1) 0) := by
  by_cases hl : i < ws.length - 1
  · have h1 := sorted_getD_le hinv.sorted (by omega : i ≤ i + 1) (by omega : i + 1 < ws.length)
    have h2 := hinv.getD_le_total (i + 1) (by omega)
    refine ⟨ws.getD (i + 1) 0 - ws.getD i 0, ?_, by omega, by simp only [hl, if_true]⟩
    rw [record_weight_at_inner ws _ _ (by omega), wsub_of_le h1 (by omega)]
  · refine ⟨v.m_weight - ws.getD (ws.length - 1) 0, ?_, by omega, by simp only [hl, if_false]⟩
    rw [record_weight_at_last ws _ _ (by omega) (by omega), wsub_of_le hinv.back_le hW]

/-! ## The invariant under mutation -/

/-- Adjusting a present record to a weight for which the new total still fits the weight type
keeps the invariant. -/
theorem adjust_keeps_inv (v : JefastVertex) (ws : List Nat) (record_id : Int) (new_weight : Nat)
    (hinv : PrefixInv v ws) (hW : v.m_weight < WMOD)
    (hmem : record_id ∈ v.m_matching_rhs_record_ids)
    (hfit : ∀ old, v.weight_of (v.m_matching_rhs_record_ids.indexOf record_id) = some old →
      v.m_weight - old + new_weight < WMOD) :
    ∃ v' ws', v.adjust_rhs_record_weight_with_sum record_id new_weight = some (v', v'.m_weight) ∧
      PrefixInv v' ws' ∧ v'.m_weight < WMOD ∧
      v'.m_matching_rhs_record_ids = v.m_matching_rhs_record_ids := by
  have hi : v.m_matching_rhs_record_ids.indexOf record_id < ws.length := by
    rw [hinv.len_eq]; exact List.indexOf_lt_length.mpr hmem
  obtain ⟨old, ws', hold, hadj, hlen', hget⟩ :=
    adjust_present v ws record_id new_weight hinv.present hinv.len_eq hmem
  obtain ⟨old2, hold2, hle, hval⟩ := hinv.record_weight_at_eq hW _ hi
  rw [hold] at hold2
  injection hold2 with hold2
  subst hold2
  have hfit' : v.m_weight - old + new_weight < WMOD := by
    apply hfit
    simp only [JefastVertex.weight_of, hinv.present]
    exact hold
  have hne := hinv.nonempty
  have hback := hinv.back_le
  generalize v.m_matching_rhs_record_ids.indexOf record_id = i at *
  have htot : wadd v.m_weight (wsub new_weight old) = v.m_weight - old + new_weight := by
    simp only [wadd, wsub, WMOD] at *
    omega
  -- the exact value of every stored weight afterwards
  have hval' : ∀ j, j < ws.length → ws'.getD j 0
      = if j ≤ i then ws.getD j 0 else ws.getD j 0 - old + new_weight := by
    intro j hj
    rw [hget j hj]
    by_cases hji : j ≤ i
    · simp only [hji, if_true]
    · simp only [hji, if_false]
      have h1 : i < ws.length - 1 := by omega
      simp only [h1, if_true] at hval
      have h2 := sorted_getD_le hinv.sorted (by omega : i + 1 ≤ j) hj
      have h3 := sorted_getD_le hinv.sorted (by omega : i ≤ i + 1) (by omega : i + 1 < ws.length)
      have h4 := hinv.getD_le_total j hj
      simp only [wadd, wsub, WMOD] at *
      omega
  refine ⟨_, ws', hadj, ⟨rfl, by rw [hlen']; exact hinv.len_eq, by omega, ?_, ?_, ?_⟩, ?_, rfl⟩
  · rw [hval' 0 (by omega)]
    simp only [Nat.zero_le, if_true]
    exact hinv.head_zero
  · apply List.pairwise_iff_getElem.mpr
    intro a b ha hb hab
    have ea := List.getD_eq_getElem ws' 0 ha
    have eb := List.getD_eq_getElem ws' 0 hb
    rw [← ea, ← eb, hval' a (by omega), hval' b (by omega)]
    have h1 := sorted_getD_le hinv.sorted (le_of_lt hab) (by omega : b < ws.length)
    by_cases hbi : b ≤ i
    · have hai : a ≤ i := by omega
      simp only [hai, hbi, if_true]
      exact h1
    · have hlt : i < ws.length - 1 := by omega
      simp only [hlt, if_true] at hval
      have h3 := sorted_getD_le hinv.sorted (by omega : i ≤ i + 1) (by omega : i + 1 < ws.length)
      have h4 := sorted_getD_le hinv.sorted (by omega : i + 1 ≤ b) (by omega : b < ws.length)
      by_cases hai : a ≤ i
      · have h5 := sorted_getD_le hinv.sorted hai (by omega : i < ws.length)
        simp only [hai, hbi, if_true, if_false]
        omega
      · have h5 := sorted_getD_le hinv.sorted (by omega : i + 1 ≤ a) (by omega : a < ws.length)
        simp only [hai, hbi, if_false]
        omega
  · show ws'.getD (ws'.length - 1) 0 ≤ wadd v.m_weight (wsub new_weight old)
    rw [htot, hlen', hval' (ws.length - 1) (by omega)]
    by_cases hl : ws.length - 1 ≤ i
    · have h1 : ¬ (i < ws.length - 1) := by omega
      simp only [h1, if_false] at hval
      simp only [hl, if_true]
      omega
    · have h1 : i < ws.length - 1 := by omega
      simp only [h1, if_true] at hval
      have h3 := sorted_getD_le hinv.sorted (by omega : i ≤ i + 1) (by omega : i + 1 < ws.length)
      have h4 := sorted_getD_le hinv.sorted (by omega : i + 1 ≤ ws.length - 1)
        (by omega : ws.length - 1 < ws.length)
      simp only [hl, if_false]
      omega
  · show wadd v.m_weight (wsub new_weight old) < WMOD
    rw [htot]
    exact hfit'

theorem getD_append_singleton_last (ws : List Nat) (x : Nat) :
    (ws ++ [x]).getD ((ws ++ [x]).length - 1) 0 = x := by
  have h : (ws ++ [x]).length - 1 = ws.length := by simp
  rw [h, List.getD_eq_getElem?_getD, List.getElem?_append_right (le_refl _)]
  simp

/-- Inserting a weight that keeps the total inside the weight type keeps the invariant. -/
theorem insert_keeps_inv (v : JefastVertex) (ws : List Nat) (record_id : Int) (new_weight : Nat)
    (hinv : PrefixInv v ws) (hfit : v.m_weight + new_weight < WMOD) :
    ∃ v' ws', v.insert_rhs_record_weight_with_sum record_id new_weight
        = some (v', v'.m_weight) ∧ PrefixInv v' ws' := by
  have hne := hinv.nonempty
  have hback := hinv.back_le
  have hl := getLast?_eq_some_getD ws 0 (by omega)
  have e1 : wadd v.m_weight new_weight = v.m_weight + new_weight := by
    simp only [wadd, WMOD] at *
    omega
  have e2 : wadd new_weight (ws.getD (ws.length - 1) 0)
      = new_weight + ws.getD (ws.length - 1) 0 := by
    simp only [wadd, WMOD] at *
    omega
  refine ⟨{ v with
      m_weight := wadd v.m_weight new_weight
      m_matching_rhs_record_ids := v.m_matching_rhs_record_ids ++ [record_id]
      mp_matching_rhs_record_weight :=
        some (ws ++ [wadd new_weight (ws.getD (ws.length - 1) 0)]) },
    ws ++ [wadd new_weight (ws.getD (ws.length - 1) 0)], ?_, ⟨rfl, ?_, ?_, ?_, ?_, ?_⟩⟩
  · simp only [JefastVertex.insert_rhs_record_weight_with_sum, hinv.present, hl,
      Option.bind_eq_bind, Option.some_bind, Option.pure_def]
  · simp only [List.length_append, List.length_singleton, hinv.len_eq]
  · simp only [List.length_append, List.length_singleton]
    omega
  · rw [List.getD_eq_getElem?_getD, List.getElem?_append_left (by omega),
      ← List.getD_eq_getElem?_getD]
    exact hinv.head_zero
  · apply List.pairwise_append.mpr
    refine ⟨hinv.sorted, List.pairwise_singleton _ _, ?_⟩
    intro a ha b hb
    rw [List.mem_singleton] at hb
    subst hb
    obtain ⟨j, hj, rfl⟩ := List.getElem_of_mem ha
    have h1 := sorted_getD_le hinv.sorted (by omega : j ≤ ws.length - 1)
      (by omega : ws.length - 1 < ws.length)
    rw [List.getD_eq_getElem _ _ hj] at h1
    rw [e2]
    omega
  · show (ws ++ [_]).getD ((ws ++ [_]).length - 1) 0 ≤ wadd v.m_weight new_weight
    rw [getD_append_singleton_last, e1, e2]
    omega

/-! ## First occurrences -/

theorem split_first_occurrence (a : Int) :
    ∀ (l : List Int), a ∈ l → ∃ pre post, l = pre ++ a :: post ∧ a ∉ pre ∧
      l.indexOf a = pre.length ∧ l.eraseIdx (l.indexOf a) = pre ++ post := by
  intro l
  induction l with
  | nil => intro h; simp at h
  | cons x l ih =>
    intro h
    by_cases hx : x = a
    · subst hx
      exact ⟨[], l, rfl, by simp, by simp, by simp⟩
    · have hmem : a ∈ l := by
        rcases List.mem_cons.mp h with h1 | h1
        · exact absurd h1.symm hx
        · exact h1
      obtain ⟨pre, post, h1, h2, h3, h4⟩ := ih hmem
      refine ⟨x :: pre, post, by simp [h1], ?_, ?_, ?_⟩
      · intro hc
        rcases List.mem_cons.mp hc with h5 | h5
        · exact hx h5.symm
        · exact h2 h5
      · rw [List.indexOf_cons_ne _ hx, h3]
        rfl
      · rw [List.indexOf_cons_ne _ hx]
        simp only [List.eraseIdx_cons_succ, h4, List.cons_append]

theorem indexOf_not_lt_of_not_mem (a : Int) (l : List Int) (h : a ∉ l) :
    ¬ (l.indexOf a < l.length) := by
  rw [List.indexOf_lt_length]; exact h

/-! ## Default-weight mode and absent records -/

/-! ## Enumerators -/

theorem size_t_to_int_range (n : Nat) :
    -2147483648 ≤ size_t_to_int n ∧ size_t_to_int n ≤ INT_MAX := by
  simp only [size_t_to_int, INT_MAX]
  omega

/-- In `size_t` an `int` position is below the bucket size exactly when it is a valid index. -/
theorem int_to_size_t_lt_iff (size : Nat) (m : Int) (hlo : -2147483648 ≤ m) (hhi : m ≤ INT_MAX)
    (hsize : size < 9223372036854775808) :
    int_to_size_t m < size ↔ (0 ≤ m ∧ m < size) := by
  simp only [int_to_size_t, INT_MAX] at *
  omega

theorem cursor_Step_s_spec (size : Nat) (m : Int) (s : Nat)
    (hlo : -2147483648 ≤ m) (hhi : m ≤ INT_MAX) (hs : s < 18446744073709551616)
    (hsize : size < 9223372036854775808) :
    ((cursor_Step_s size m s).1 = true ↔
      (0 ≤ (cursor_Step_s size m s).2 ∧ (cursor_Step_s size m s).2 < size)) ∧
    (m + s ≤ INT_MAX → (cursor_Step_s size m s).2 = m + s) := by
  constructor
  · simp only [cursor_Step_s, decide_eq_true_eq]
    exact int_to_size_t_lt_iff size _ (size_t_to_int_range _).1 (size_t_to_int_range _).2 hsize
  · intro hfit
    simp only [cursor_Step_s, size_t_to_int, int_to_size_t, INT_MAX] at *
    omega

theorem cursor_Step_repeat_spec (size : Nat) :
    ∀ (k : Nat) (m : Int), m + k + 1 ≤ INT_MAX →
      cursor_Step_repeat size k m
        = some (decide (int_to_size_t (m + k + 1) < size), m + k + 1) := by
  intro k
  induction k with
  | zero =>
    intro m h
    have hne : m ≠ INT_MAX := by simp only [INT_MAX] at *; omega
    simp only [cursor_Step_repeat, cursor_Step, hne, if_false]
    simp
  | succ k ih =>
    intro m h
    have hne : m ≠ INT_MAX := by simp only [INT_MAX] at *; omega
    have h' : m + 1 + (k : Int) + 1 ≤ INT_MAX := by
      simp only [INT_MAX] at *; push_cast at h; omega
    simp only [cursor_Step_repeat, cursor_Step, hne, if_false, Option.some_bind, ih (m + 1) h']
    have e : m + 1 + (k : Int) + 1 = m + ((k + 1 : Nat) : Int) + 1 := by push_cast; omega
    rw [e]

/-- When the new position fits an `int`, `Step(s)` is `(m + s < size as size_t, m + s)`. -/
theorem cursor_Step_s_fits (size : Nat) (m : Int) (s : Nat)
    (hlo : -2147483648 ≤ m) (hhi : m ≤ INT_MAX) (hs : s < 18446744073709551616)
    (hsize : size < 9223372036854775808) (hfit : m + s ≤ INT_MAX) :
    cursor_Step_s size m s = (decide (int_to_size_t (m + s) < size), m + s) := by
  have h2 := (cursor_Step_s_spec size m s hlo hhi hs hsize).2 hfit
  have h1 : (cursor_Step_s size m s).1
      = decide (int_to_size_t (cursor_Step_s size m s).2 < size) := rfl
  rw [h2] at h1
  exact Prod.ext h1 h2

theorem cursor_Step_s_eq_repeat (size : Nat) (m : Int) (k : Nat)
    (hlo : -2147483648 ≤ m) (hhi : m ≤ INT_MAX)
    (hsize : size < 9223372036854775808) (hfit : m + (k + 1 : Nat) ≤ INT_MAX) :
    cursor_Step_repeat size k m = some (cursor_Step_s size m (k + 1)) := by
  have hs : k + 1 < 18446744073709551616 := by
    simp only [INT_MAX] at *; push_cast at hfit; omega
  rw [cursor_Step_s_fits size m (k + 1) hlo hhi hs hsize hfit,
    cursor_Step_repeat_spec size k m (by push_cast at hfit; omega)]
  have e : m + (k : Int) + 1 = m + ((k + 1 : Nat) : Int) := by push_cast; omega
  rw [e]

theorem resize_of_le (ws : List Nat) (n : Nat) (h : ws.length ≤ n) :
    resize ws n 0 = ws ++ List.replicate (n - ws.length) 0 := by
  simp only [resize, List.take_of_length_le h]

theorem resize_length_of_le (ws : List Nat) (n : Nat) (h : ws.length ≤ n) :
    (resize ws n 0).length = n := by
  rw [resize_of_le ws n h]
  simp only [List.length_append, List.length_replicate]
  omega

theorem resize_sum_of_le (ws : List Nat) (n : Nat) (h : ws.length ≤ n) :
    (resize ws n 0).sum = ws.sum := by
  rw [resize_of_le ws n h]
  simp

theorem resize_getD_of_le (ws : List Nat) (n : Nat) (h : ws.length ≤ n) (j : Nat) :
    (resize ws n 0).getD j 0 = ws.getD j 0 := by
  rw [resize_of_le ws n h, List.getD_eq_getElem?_getD, List.getD_eq_getElem?_getD]
  by_cases hj : j < ws.length
  · rw [List.getElem?_append_left hj]
  · rw [List.getElem?_append_right (by omega), List.getElem?_eq_none (by omega : ws.length ≤ j)]
    by_cases hj2 : j - ws.length < n - ws.length
    · rw [List.getElem?_replicate_of_lt hj2]
      rfl
    · rw [List.getElem?_eq_none (by simp only [List.length_replicate]; omega)]

theorem sum_set_add (w : Nat) :
    ∀ (ws : List Nat) (i : Nat), i < ws.length →
      (ws.set i w).sum + ws.getD i 0 = ws.sum + w := by
  intro ws
  induction ws with
  | nil => intro i hi; simp at hi
  | cons x ws ih =>
    intro i hi
    cases i with
    | zero => simp only [List.set_cons_zero, List.sum_cons, List.getD_cons_zero]; omega
    | succ i =>
      have := ih i (by simpa using hi)
      simp only [List.set_cons_succ, List.sum_cons, List.getD_cons_succ]
      omega

theorem getD_set_ne (ws : List Nat) (i j w : Nat) (h : j ≠ i) :
    (ws.set i w).getD j 0 = ws.getD j 0 := by
  rw [List.getD_eq_getElem?_getD, List.getD_eq_getElem?_getD, List.getElem?_set_ne (Ne.symm h)]

/-- Storing `w` at a valid position `i` after the resize. -/
theorem assign_weight_tracks (v : JefastVertex) (ws : List Nat) (i w : Nat)
    (hm : v.m_weight = ws.sum % WMOD)
    (hlen : ws.length ≤ v.m_matching_rhs_record_ids.length)
    (hi : i < v.m_matching_rhs_record_ids.length) :
    (resize ws v.get_RHS_outdegree 0)[i]? = some (ws.getD i 0) ∧
    TotalTracksWeights { v with
      m_weight := wadd v.m_weight (wsub w (ws.getD i 0))
      mp_matching_rhs_record_weight := some ((resize ws v.get_RHS_outdegree 0).set i w) } := by
  have hl := resize_length_of_le ws _ hlen
  have hs := resize_sum_of_le ws _ hlen
  have hg := resize_getD_of_le ws _ hlen i
  have hi' : i < (resize ws v.m_matching_rhs_record_ids.length 0).length := by omega
  constructor
  · simp only [JefastVertex.get_RHS_outdegree]
    rw [← hg, List.getD_eq_getElem _ _ hi', List.getElem?_eq_getElem hi']
  · refine ⟨_, rfl, ?_, ?_⟩
    · have h1 := sum_set_add w (resize ws v.m_matching_rhs_record_ids.length 0) i hi'
      rw [hg, hs] at h1
      simp only [JefastVertex.get_RHS_outdegree]
      show wadd v.m_weight (wsub w (ws.getD i 0)) = _
      rw [hm]
      simp only [wadd, wsub, WMOD]
      omega
    · simp only [JefastVertex.get_RHS_outdegree, List.length_set]
      omega

theorem BuildCall.run_tracks (v v1 : JefastVertex) (c : BuildCall)
    (hinv : TotalTracksWeights v) (hrun : c.run v = some v1) : TotalTracksWeights v1 := by
  obtain ⟨ws, hpres, hm, hlen⟩ := hinv
  cases c with
  | insert_rhs_record_ids record_id =>
    simp only [BuildCall.run, Option.some.injEq] at hrun
    subst hrun
    refine ⟨ws, hpres, hm, ?_⟩
    simp only [JefastVertex.insert_rhs_record_ids, List.length_append, List.length_singleton]
    omega
  | adjust_rhs_record_weight record_id weight =>
    simp only [BuildCall.run, JefastVertex.adjust_rhs_record_weight, hpres] at hrun
    by_cases hi : v.m_matching_rhs_record_ids.indexOf record_id
        < v.m_matching_rhs_record_ids.length
    · obtain ⟨h1, h2⟩ := assign_weight_tracks v ws _ weight hm hlen hi
      simp only [hi, if_true, h1, Option.bind_eq_bind, Option.some_bind, Option.pure_def,
        Option.some.injEq] at hrun
      subst hrun
      exact h2
    · simp only [hi, if_false, Option.some.injEq] at hrun
      subst hrun
      refine ⟨_, rfl, ?_, ?_⟩
      · show v.m_weight = (resize ws v.m_matching_rhs_record_ids.length 0).sum % WMOD
        rw [resize_sum_of_le ws _ hlen]
        exact hm
      · show (resize ws v.m_matching_rhs_record_ids.length 0).length
            ≤ v.m_matching_rhs_record_ids.length
        rw [resize_length_of_le ws _ hlen]
  | setWeight e w =>
    simp only [BuildCall.run, JefastVertexEnumeratorRHS.setWeight, hpres] at hrun
    by_cases hi : int_to_size_t e.m_idx < v.m_matching_rhs_record_ids.length
    · obtain ⟨h1, h2⟩ := assign_weight_tracks v ws _ w hm hlen hi
      simp only [h1, Option.bind_eq_bind, Option.some_bind, Option.pure_def,
        Option.some.injEq] at hrun
      subst hrun
      exact h2
    · have hnone : (resize ws v.get_RHS_outdegree 0)[int_to_size_t e.m_idx]? = none := by
        apply List.getElem?_eq_none
        show (resize ws v.m_matching_rhs_record_ids.length 0).length ≤ _
        rw [resize_length_of_le ws _ hlen]
        omega
      simp only [hnone, Option.bind_eq_bind, Option.none_bind] at hrun
      exact Option.noConfusion hrun

theorem run_calls_tracks :
    ∀ (calls : List BuildCall) (v v1 : JefastVertex), TotalTracksWeights v →
      run_calls calls v = some v1 → TotalTracksWeights v1 := by
  intro calls
  induction calls with
  | nil =>
    intro v v1 hinv hrun
    simp only [run_calls, Option.some.injEq] at hrun
    subst hrun
    exact hinv
  | cons c cs ih =>
    intro v v1 hinv hrun
    simp only [run_calls] at hrun
    cases hc : c.run v with
    | none =>
      rw [hc] at hrun
      exact Option.noConfusion hrun
    | some v2 =>
      rw [hc, Option.some_bind] at hrun
      exact ih v2 v1 (BuildCall.run_tracks v v2 c hinv hc) hrun

theorem empty_tracks : TotalTracksWeights JefastVertex.empty :=
  ⟨[], rfl, by decide, by decide⟩

/-! ## Sampling after a delete -/

/-- After a tombstone delete on an invariant vertex: the result, its invariant, and the decoded
weight 0 at the deleted position. -/
theorem delete_present_inv (v : JefastVertex) (ws : List Nat) (record_id : Int)
    (hinv : PrefixInv v ws) (hW : v.m_weight < WMOD)
    (hmem : record_id ∈ v.m_matching_rhs_record_ids) :
    ∃ v' ws', v.delete_rhs_record_weight_with_sum record_id = some (v', v'.m_weight) ∧
      PrefixInv v' ws' ∧ v'.m_weight < WMOD ∧
      v'.m_matching_rhs_record_ids
        = v.m_matching_rhs_record_ids.set (v.m_matching_rhs_record_ids.indexOf record_id) (-1) ∧
      record_weight_at ws' v'.m_weight (v.m_matching_rhs_record_ids.indexOf record_id)
        = some 0 := by
  have hi : v.m_matching_rhs_record_ids.indexOf record_id < ws.length := by
    rw [hinv.len_eq]; exact List.indexOf_lt_length.mpr hmem
  obtain ⟨v1, ws1, hadj, hinv1, hW1, hids⟩ := adjust_keeps_inv v ws record_id 0 hinv hW hmem
    (fun old _ => by omega)
  obtain ⟨old, ws2, hold, hadj2, hlen2, hget⟩ :=
    adjust_present v ws record_id 0 hinv.present hinv.len_eq hmem
  obtain ⟨hzero, _⟩ := shifted_weights ws ws2 v.m_weight 0 old _ hlen2 hi (by decide) hold hget
  rw [hadj] at hadj2
  injection hadj2 with hadj2
  injection hadj2 with hv _
  have hws : ws1 = ws2 := by
    have h1 := hinv1.present
    rw [hv] at h1
    injection h1 with h1
    exact h1.symm
  have hm : v1.m_weight = wadd v.m_weight (wsub 0 old) := by rw [hv]
  have hlt : v.m_matching_rhs_record_ids.indexOf record_id
      < v1.m_matching_rhs_record_ids.length := by
    rw [hids]; exact List.indexOf_lt_length.mpr hmem
  refine ⟨{ v1 with m_matching_rhs_record_ids :=
      v1.m_matching_rhs_record_ids.set (v.m_matching_rhs_record_ids.indexOf record_id) (-1) },
    ws1, ?_, ⟨hinv1.present, ?_, hinv1.nonempty, hinv1.head_zero, hinv1.sorted, hinv1.back_le⟩,
    hW1, ?_, ?_⟩
  · simp only [JefastVertex.delete_rhs_record_weight_with_sum, hinv.present, hadj,
      Option.bind_eq_bind, Option.some_bind, hlt, if_true, Option.pure_def]
  · simp only [List.length_set]
    exact hinv1.len_eq
  · simp only [hids]
  · show record_weight_at ws1 v1.m_weight _ = some 0
    rw [hws, hm]
    exact hzero

/-! # The claims -/

/-- Claim C1: on a weighted vertex satisfying the invariant (one weight per record, at least one
record, first weight 0, non-decreasing, last weight at most the total), `get_records r` is defined
for every `r` below the total; it picks the largest position `i` whose weight is at most `r`,
returns that record, reports `ws[i+1] - ws[i]` (or `total - ws[n-1]` at the last position), and
leaves the residual `r - ws[i]`, which is below the reported weight. -/
theorem get_records_weighted (v : JefastVertex) (ws : List Nat) (r : Nat)
    (hinv : PrefixInv v ws) (hW : v.m_weight < WMOD) (hr : r < v.m_weight) :
    ∃ i, i < ws.length ∧ (∀ j, j < ws.length → (ws.getD j 0 ≤ r ↔ j ≤ i)) ∧
      v.get_records r = some
        { inout_weight_condition := r - ws.getD i 0
          out_record_id := v.m_matching_rhs_record_ids.getD i 0
          record_weight :=
            if i < ws.length - 1 then ws.getD (i + 1) 0 - ws.getD i 0
            else v.m_weight - ws.getD (ws.length - 1) 0
          index := i } ∧
      ws.getD i 0 ≤ r ∧
      r - ws.getD i 0 <
        (if i < ws.length - 1 then ws.getD (i + 1) 0 - ws.getD i 0
         else v.m_weight - ws.getD (ws.length - 1) 0) := by
  obtain ⟨i, hi, hle, hgt, hget, hlt⟩ := get_records_pick v ws r hinv hW hr
  refine ⟨i, hi, ?_, hget, hle, hlt⟩
  intro j hj
  constructor
  · intro h
    by_contra hc
    have := hgt j (by omega) hj
    omega
  · intro h
    exact le_trans (sorted_getD_le hinv.sorted h hi) hle

/-- The vertex with records 7, 8, 9 of weights 3, 5, 2 at rank 5. -/
theorem get_records_weighted_witness :
    ∃ i, i < 3 ∧ (JefastVertex.get_records ⟨10, [], [7, 8, 9], some [0, 3, 8]⟩ 5).isSome = true ∧
      [0, 3, 8].getD i 0 ≤ 5 := by
  obtain ⟨i, hi, _, hg, hle, _⟩ := get_records_weighted ⟨10, [], [7, 8, 9], some [0, 3, 8]⟩
    [0, 3, 8] 5 ⟨rfl, rfl, by decide, rfl, by decide, by decide⟩ (by decide) (by decide)
  exact ⟨i, hi, by rw [hg]; rfl, hle⟩

/-- Claim C2: on a vertex whose weights are the exact exclusive prefix sums of per-record weights
`pw` and whose total is their sum, `get_records` sends every rank `r` below the total to a pair
(position `i`, residual `s`) with `s < pw[i]` and `r = ws[i] + s`; conversely every such pair is
hit by the rank `ws[i] + s`; so position `i` is returned for exactly `pw[i]` ranks, and a position
of weight 0 for none. -/
theorem get_records_rank_coverage (v : JefastVertex) (ws pw : List Nat)
    (hpres : v.mp_matching_rhs_record_weight = some ws)
    (hlen : ws.length = v.m_matching_rhs_record_ids.length)
    (hpw : pw.length = ws.length)
    (hpre : ∀ i, i < ws.length → ws.getD i 0 = (pw.take i).sum)
    (htot : v.m_weight = pw.sum) (hW : v.m_weight < WMOD) :
    (∀ r, r < v.m_weight → ∃ i s, i < pw.length ∧ s < pw.getD i 0 ∧ r = ws.getD i 0 + s ∧
        ∃ res, v.get_records r = some res ∧ res.index = i ∧ res.inout_weight_condition = s ∧
          res.out_record_id = v.m_matching_rhs_record_ids.getD i 0) ∧
    (∀ i s, i < pw.length → s < pw.getD i 0 → ws.getD i 0 + s < v.m_weight ∧
        ∃ res, v.get_records (ws.getD i 0 + s) = some res ∧ res.index = i ∧
          res.inout_weight_condition = s ∧
          res.out_record_id = v.m_matching_rhs_record_ids.getD i 0) ∧
    (∀ i r res, i < pw.length → pw.getD i 0 = 0 → r < v.m_weight →
        v.get_records r = some res → res.index ≠ i) := by
  have hA : ∀ r, r < v.m_weight → ∃ i s, i < pw.length ∧ s < pw.getD i 0 ∧
      r = ws.getD i 0 + s ∧
      ∃ res, v.get_records r = some res ∧ res.index = i ∧ res.inout_weight_condition = s ∧
        res.out_record_id = v.m_matching_rhs_record_ids.getD i 0 := by
    intro r hr
    have hne : 1 ≤ ws.length := by
      by_contra hc
      have h0 : pw = [] := List.length_eq_zero.mp (by omega)
      rw [htot, h0] at hr
      simp at hr
    have hinv := inv_of_exact_sums v ws pw hpres hlen hpw hpre htot hne
    obtain ⟨i, hi, hle, hgt, hget, hlt⟩ := get_records_pick v ws r hinv hW hr
    rw [decoded_weight_eq ws pw v.m_weight hpw hpre htot i hi] at hlt
    exact ⟨i, r - ws.getD i 0, by omega, hlt, by omega, _, hget, rfl, rfl, rfl⟩
  have hB : ∀ i s, i < pw.length → s < pw.getD i 0 → ws.getD i 0 + s < v.m_weight ∧
      ∃ res, v.get_records (ws.getD i 0 + s) = some res ∧ res.index = i ∧
        res.inout_weight_condition = s ∧
        res.out_record_id = v.m_matching_rhs_record_ids.getD i 0 := by
    intro i s hi hs
    have hstep := sum_take_succ_getD pw i hi
    have hle := sum_take_le_sum pw (i + 1)
    have hwi := hpre i (by omega)
    have hr : ws.getD i 0 + s < v.m_weight := by omega
    refine ⟨hr, ?_⟩
    obtain ⟨i', s', hi', hs', hrs, res, hget, hidx, hres, hid⟩ := hA _ hr
    have hstep' := sum_take_succ_getD pw i' hi'
    have hwi' := hpre i' (by omega)
    have hii : i' = i := by
      rcases Nat.lt_trichotomy i' i with h | h | h
      · have := sum_take_mono pw (by omega : i' + 1 ≤ i)
        simp only at this
        omega
      · exact h
      · have := sum_take_mono pw (by omega : i + 1 ≤ i')
        simp only at this
        omega
    subst hii
    exact ⟨res, hget, hidx, by omega, hid⟩
  refine ⟨hA, hB, ?_⟩
  intro i r res hi hz hr hget hidx
  obtain ⟨i', s', hi', hs', hrs, res', hget', hidx', hres', hid'⟩ := hA r hr
  rw [hget] at hget'
  cases hget'
  rw [hidx] at hidx'
  subst hidx'
  omega

/-- The vertex with records 7, 8, 9 of weights 3, 5, 2: rank 3 + 2 lands on position 1. -/
theorem get_records_rank_coverage_witness :
    ∃ res, JefastVertex.get_records ⟨10, [], [7, 8, 9], some [0, 3, 8]⟩ 5 = some res ∧
      res.index = 1 ∧ res.inout_weight_condition = 2 := by
  obtain ⟨_, res, hg, h1, h2, _⟩ :=
    (get_records_rank_coverage ⟨10, [], [7, 8, 9], some [0, 3, 8]⟩ [0, 3, 8] [3, 5, 2]
      rfl rfl rfl (by decide) (by decide) (by decide)).2.1 1 2 (by decide) (by decide)
  exact ⟨res, hg, h1, h2⟩

/-- Claim C3: `SetupPrefixSum` on per-record weights `pw` succeeds, leaves the record ids, the
LHS ids and the total alone, and stores at every position `i` the 64-bit sum of `pw[0..i)`, which
is the exact sum whenever that sum fits the weight type; when the total is the sum of `pw`
beforehand, the decoded weight of every position is `pw[i]` again. -/
theorem SetupPrefixSum_spec (v : JefastVertex) (pw : List Nat)
    (hpres : v.mp_matching_rhs_record_weight = some pw) :
    ∃ v' ws, v.SetupPrefixSum = some v' ∧
      v'.mp_matching_rhs_record_weight = some ws ∧
      v'.m_matching_rhs_record_ids = v.m_matching_rhs_record_ids ∧
      v'.m_matching_lhs_record_ids = v.m_matching_lhs_record_ids ∧
      v'.m_weight = v.m_weight ∧
      ws.length = pw.length ∧
      (∀ i, i < pw.length → ws.getD i 0 = (pw.take i).sum % WMOD) ∧
      (∀ i, i < pw.length → (pw.take i).sum < WMOD → ws.getD i 0 = (pw.take i).sum) ∧
      (v.m_weight = pw.sum → v.m_weight < WMOD →
        ∀ i, i < pw.length → v'.weight_of i = some (pw.getD i 0)) := by
  have hmod : ∀ i, i < pw.length →
      (running_sum_loop 0 pw).getD i 0 = (pw.take i).sum % WMOD := by
    intro i hi
    rw [running_sum_loop_getD pw 0 i hi (by decide), Nat.zero_add]
  have hexact : ∀ i, i < pw.length → (pw.take i).sum < WMOD →
      (running_sum_loop 0 pw).getD i 0 = (pw.take i).sum := by
    intro i hi hlt
    rw [hmod i hi, Nat.mod_eq_of_lt hlt]
  refine ⟨{ v with mp_matching_rhs_record_weight := some (running_sum_loop 0 pw) },
    running_sum_loop 0 pw, ?_, rfl, rfl, rfl, rfl, running_sum_loop_length pw 0, hmod, hexact, ?_⟩
  · simp only [JefastVertex.SetupPrefixSum, hpres]
  · intro htot hW i hi
    have hl := running_sum_loop_length pw 0
    have hfit : ∀ j, (pw.take j).sum < WMOD := fun j =>
      lt_of_le_of_lt (sum_take_le_sum pw j) (htot ▸ hW)
    have hpre : ∀ j, j < (running_sum_loop 0 pw).length →
        (running_sum_loop 0 pw).getD j 0 = (pw.take j).sum := fun j hj =>
      hexact j (by omega) (hfit j)
    have hdec := decoded_weight_eq (running_sum_loop 0 pw) pw v.m_weight hl.symm hpre htot i
      (by omega)
    simp only [JefastVertex.weight_of]
    by_cases h1 : i < (running_sum_loop 0 pw).length - 1
    · simp only [h1, if_true] at hdec
      have hle : (running_sum_loop 0 pw).getD i 0 ≤ (running_sum_loop 0 pw).getD (i + 1) 0 := by
        rw [hpre i (by omega), hpre (i + 1) (by omega)]
        exact sum_take_mono pw (Nat.le_succ i)
      have hlt : (running_sum_loop 0 pw).getD (i + 1) 0 < WMOD := by
        rw [hpre (i + 1) (by omega)]
        exact hfit _
      rw [record_weight_at_inner _ _ _ (by omega), ← hdec, wsub_of_le hle hlt]
    · simp only [h1, if_false] at hdec
      have hle : (running_sum_loop 0 pw).getD ((running_sum_loop 0 pw).length - 1) 0
          ≤ v.m_weight := by
        rw [hpre _ (by omega), htot]
        exact sum_take_le_sum pw _
      rw [record_weight_at_last _ _ _ (by omega) (by omega), ← hdec, wsub_of_le hle hW]

/-- Weights 1, 3, 2 with total 6: position 1 decodes to 3 after the conversion. -/
theorem SetupPrefixSum_spec_witness :
    ∃ v', JefastVertex.SetupPrefixSum ⟨6, [], [7, 8, 9], some [1, 3, 2]⟩ = some v' ∧
      v'.weight_of 1 = some 3 := by
  obtain ⟨v', ws, h1, _, _, _, _, _, _, _, h2⟩ :=
    SetupPrefixSum_spec ⟨6, [], [7, 8, 9], some [1, 3, 2]⟩ [1, 3, 2] rfl
  exact ⟨v', h1, h2 rfl (by decide) 1 (by decide)⟩

/-- Claim C4, amended: when `purge_zero_weights` runs first, then `sort`, then `SetupPrefixSum`,
a vertex holding one per-record weight per RHS record (total their sum) ends with exactly the
records of non-zero weight (`K` is a permutation of them), in descending weight order, and with
weights equal to their exact exclusive prefix sums; the total and the LHS ids are unchanged. -/
theorem rebuild_finalise_purge_first (std_sort : List key_weight_pair → List key_weight_pair)
    (hc : StdSortContract std_sort) (v : JefastVertex) (pw : List Nat)
    (hpres : v.mp_matching_rhs_record_weight = some pw)
    (hlen : pw.length = v.m_matching_rhs_record_ids.length)
    (htot : v.m_weight = pw.sum) (hW : v.m_weight < WMOD) :
    ∃ (v' : JefastVertex) (ws' : List Nat) (K : List (Int × Nat)),
      ((v.purge_zero_weights.bind (JefastVertex.sort std_sort)).bind
        JefastVertex.SetupPrefixSum) = some v' ∧
      v'.mp_matching_rhs_record_weight = some ws' ∧
      v'.m_matching_rhs_record_ids = K.map Prod.fst ∧
      K.Perm ((List.zip v.m_matching_rhs_record_ids pw).filter (fun p => decide (p.2 ≠ 0))) ∧
      (K.map Prod.snd).Pairwise (· ≥ ·) ∧
      ws'.length = K.length ∧
      (∀ i, i < K.length → ws'.getD i 0 = ((K.map Prod.snd).take i).sum) ∧
      v'.m_weight = v.m_weight ∧
      v'.m_matching_lhs_record_ids = v.m_matching_lhs_record_ids := by
  have hids : v.m_matching_rhs_record_ids
      = (List.zip v.m_matching_rhs_record_ids pw).map Prod.fst :=
    (List.map_fst_zip _ _ (by omega)).symm
  have hsnd : (List.zip v.m_matching_rhs_record_ids pw).map Prod.snd = pw :=
    List.map_snd_zip _ _ (by omega)
  have hws : v.mp_matching_rhs_record_weight
      = some ((List.zip v.m_matching_rhs_record_ids pw).map Prod.snd) := by
    rw [hpres, hsnd]
  have hpurge := purge_zero_weights_pairs v _ hids hws
  obtain ⟨K, hK, hsorted, hsort⟩ := sort_pairs std_sort hc
    { v with
      m_matching_rhs_record_ids :=
        ((List.zip v.m_matching_rhs_record_ids pw).filter (fun p => decide (p.2 ≠ 0))).map Prod.fst
      mp_matching_rhs_record_weight :=
        some (((List.zip v.m_matching_rhs_record_ids pw).filter
          (fun p => decide (p.2 ≠ 0))).map Prod.snd) }
    ((List.zip v.m_matching_rhs_record_ids pw).filter (fun p => decide (p.2 ≠ 0))) rfl rfl
  have hsum : (K.map Prod.snd).sum = v.m_weight := by
    rw [(hK.map Prod.snd).sum_eq, sum_filter_nonzero, hsnd, htot]
  refine ⟨{ v with
      m_matching_rhs_record_ids := K.map Prod.fst
      mp_matching_rhs_record_weight := some (running_sum_loop 0 (K.map Prod.snd)) },
    running_sum_loop 0 (K.map Prod.snd), K, ?_, rfl, rfl, hK, hsorted, ?_, ?_, rfl, rfl⟩
  · rw [hpurge, Option.some_bind, hsort, Option.some_bind]
    rfl
  · rw [running_sum_loop_length, List.length_map]
  · intro i hi
    rw [running_sum_loop_getD _ 0 i (by simpa using hi) (by decide), Nat.zero_add]
    apply Nat.mod_eq_of_lt
    exact lt_of_le_of_lt (sum_take_le_sum _ i) (hsum ▸ hW)

/-- Records 7, 8, 9 with weights 2, 0, 5: the finalised vertex keeps two records. -/
theorem rebuild_finalise_purge_first_witness :
    ∃ v', ((JefastVertex.purge_zero_weights ⟨7, [], [7, 8, 9], some [2, 0, 5]⟩).bind
        (JefastVertex.sort insertion_sort_desc)).bind JefastVertex.SetupPrefixSum = some v' ∧
      v'.m_matching_rhs_record_ids.length = 2 := by
  obtain ⟨v', ws', K, h1, _, h3, h4, _⟩ :=
    rebuild_finalise_purge_first insertion_sort_desc insertion_sort_desc_contract
      ⟨7, [], [7, 8, 9], some [2, 0, 5]⟩ [2, 0, 5] rfl rfl (by decide) (by decide)
  refine ⟨v', h1, ?_⟩
  rw [h3, List.length_map, h4.length_eq]
  decide

/-- Claim C4 fails in the stated order: on records 10, 11 with weights 3, 0 (total 3), `sort`,
then `SetupPrefixSum`, then `purge_zero_weights` drops record 10 (weight 3) together with its
prefix 0, and keeps record 11 (weight 0) with stored weight 3. The input is already in descending
order with distinct weights, so every sorting routine meeting the contract leaves it as it is. -/
theorem rebuild_finalise_order_counterexample :
    ∃ v', ((JefastVertex.sort insertion_sort_desc ⟨3, [], [10, 11], some [3, 0]⟩).bind
        JefastVertex.SetupPrefixSum).bind JefastVertex.purge_zero_weights = some v' ∧
      v'.m_matching_rhs_record_ids = [11] ∧
      v'.mp_matching_rhs_record_weight = some [3] :=
  ⟨⟨3, [], [11], some [3]⟩, by decide, rfl, rfl⟩

/-- Claim C5: on an invariant vertex, adjusting a record that occurs (first at position `i`) to
`new_weight` succeeds and returns the new total; afterwards position `i` decodes to `new_weight`,
every other position decodes as before, the stored weights up to `i` are unchanged, the ids are
unchanged, and the total is `total - old + new_weight` in the 64-bit weight type, which is that
exact number whenever it fits. -/
theorem adjust_rhs_record_weight_with_sum_spec (v : JefastVertex) (ws : List Nat)
    (record_id : Int) (new_weight : Nat)
    (hinv : PrefixInv v ws) (hW : v.m_weight < WMOD) (hnew : new_weight < WMOD)
    (hmem : record_id ∈ v.m_matching_rhs_record_ids) :
    ∃ v' ws' old,
      v.adjust_rhs_record_weight_with_sum record_id new_weight = some (v', v'.m_weight) ∧
      v'.mp_matching_rhs_record_weight = some ws' ∧
      ws'.length = ws.length ∧
      v'.m_matching_rhs_record_ids = v.m_matching_rhs_record_ids ∧
      v'.m_matching_lhs_record_ids = v.m_matching_lhs_record_ids ∧
      v.weight_of (v.m_matching_rhs_record_ids.indexOf record_id) = some old ∧
      v'.weight_of (v.m_matching_rhs_record_ids.indexOf record_id) = some new_weight ∧
      (∀ j, j < ws.length → j ≠ v.m_matching_rhs_record_ids.indexOf record_id →
        v'.weight_of j = v.weight_of j) ∧
      (∀ j, j ≤ v.m_matching_rhs_record_ids.indexOf record_id → ws'.getD j 0 = ws.getD j 0) ∧
      old ≤ v.m_weight ∧
      v'.m_weight = (v.m_weight - old + new_weight) % WMOD ∧
      (v.m_weight - old + new_weight < WMOD → v'.m_weight = v.m_weight - old + new_weight) := by
  have hi : v.m_matching_rhs_record_ids.indexOf record_id < ws.length := by
    rw [hinv.len_eq]; exact List.indexOf_lt_length.mpr hmem
  obtain ⟨old, ws', hold, hadj, hlen', hget⟩ :=
    adjust_present v ws record_id new_weight hinv.present hinv.len_eq hmem
  obtain ⟨old2, hold2, hle, _⟩ := hinv.record_weight_at_eq hW _ hi
  rw [hold] at hold2
  injection hold2 with hold2
  subst hold2
  obtain ⟨hnewW, hothers⟩ := shifted_weights ws ws' v.m_weight new_weight old _ hlen' hi hnew
    hold hget
  have htot : wadd v.m_weight (wsub new_weight old) = (v.m_weight - old + new_weight) % WMOD := by
    simp only [wadd, wsub, WMOD] at *
    omega
  refine ⟨_, ws', old, hadj, rfl, hlen', rfl, rfl, ?_, hnewW, ?_, ?_, hle, htot, ?_⟩
  · simp only [JefastVertex.weight_of, hinv.present]
    exact hold
  · intro j hj hji
    simp only [JefastVertex.weight_of, hinv.present]
    exact hothers j hj hji
  · intro j hj
    rw [hget j (by omega)]
    simp only [hj, if_true]
  · intro hfit
    show wadd v.m_weight (wsub new_weight old) = _
    rw [htot, Nat.mod_eq_of_lt hfit]

/-- Records 7, 8, 9 of weights 3, 5, 2: record 8 is set to weight 1. -/
theorem adjust_rhs_record_weight_with_sum_spec_witness :
    ∃ v', JefastVertex.adjust_rhs_record_weight_with_sum ⟨10, [], [7, 8, 9], some [0, 3, 8]⟩ 8 1 = some (v', v'.m_weight) ∧
      v'.weight_of 1 = some 1 := by
  obtain ⟨v', _, _, h1, _, _, _, _, _, h2, _⟩ :=
    adjust_rhs_record_weight_with_sum_spec ⟨10, [], [7, 8, 9], some [0, 3, 8]⟩ [0, 3, 8] 8 1
      ⟨rfl, rfl, by decide, rfl, by decide, by decide⟩ (by decide) (by decide) (by decide)
  exact ⟨v', h1, h2⟩

/-- Claim C6 at its failing input: a vertex with the single record 7 of weight 5 (weights `[0]`,
total 5) receives record 8 with weight 3. The code stores weights `[0, 3]` and total 8, so record 7
now decodes to weight 3 (it was 5) and the appended record 8 decodes to 5, not 3. -/
theorem insert_rhs_swaps_weights :
    ∃ v', JefastVertex.insert_rhs_record_weight_with_sum ⟨5, [], [7], some [0]⟩ 8 3
        = some (v', 8) ∧
      v'.m_matching_rhs_record_ids = [7, 8] ∧
      v'.mp_matching_rhs_record_weight = some [0, 3] ∧
      JefastVertex.weight_of ⟨5, [], [7], some [0]⟩ 0 = some 5 ∧
      v'.weight_of 0 = some 3 ∧
      v'.weight_of 1 = some 5 :=
  ⟨⟨8, [], [7, 8], some [0, 3]⟩, by decide, rfl, rfl, by decide, by decide, by decide⟩

/-- Claim C7: on an invariant vertex, deleting a record that occurs (first at position `i`)
succeeds and keeps both lengths; position `i` holds the id `-1` and decodes to weight 0, every
other id and every other decoded weight is unchanged, and the total has dropped by exactly the old
weight of position `i`. -/
theorem delete_rhs_record_weight_with_sum_spec (v : JefastVertex) (ws : List Nat)
    (record_id : Int)
    (hinv : PrefixInv v ws) (hW : v.m_weight < WMOD)
    (hmem : record_id ∈ v.m_matching_rhs_record_ids) :
    ∃ v' ws' old,
      v.delete_rhs_record_weight_with_sum record_id = some (v', v'.m_weight) ∧
      v'.mp_matching_rhs_record_weight = some ws' ∧
      ws'.length = ws.length ∧
      v'.m_matching_rhs_record_ids.length = v.m_matching_rhs_record_ids.length ∧
      v'.m_matching_rhs_record_ids.getD (v.m_matching_rhs_record_ids.indexOf record_id) 0 = -1 ∧
      (∀ j, j ≠ v.m_matching_rhs_record_ids.indexOf record_id →
        v'.m_matching_rhs_record_ids.getD j 0 = v.m_matching_rhs_record_ids.getD j 0) ∧
      v'.m_matching_lhs_record_ids = v.m_matching_lhs_record_ids ∧
      v.weight_of (v.m_matching_rhs_record_ids.indexOf record_id) = some old ∧
      v'.weight_of (v.m_matching_rhs_record_ids.indexOf record_id) = some 0 ∧
      (∀ j, j < ws.length → j ≠ v.m_matching_rhs_record_ids.indexOf record_id →
        v'.weight_of j = v.weight_of j) ∧
      v'.m_weight + old = v.m_weight := by
  have hi : v.m_matching_rhs_record_ids.indexOf record_id < ws.length := by
    rw [hinv.len_eq]; exact List.indexOf_lt_length.mpr hmem
  obtain ⟨old, ws', hold, hadj, hlen', hget⟩ :=
    adjust_present v ws record_id 0 hinv.present hinv.len_eq hmem
  obtain ⟨old2, hold2, hle, _⟩ := hinv.record_weight_at_eq hW _ hi
  rw [hold] at hold2
  injection hold2 with hold2
  subst hold2
  obtain ⟨hnewW, hothers⟩ := shifted_weights ws ws' v.m_weight 0 old _ hlen' hi (by decide)
    hold hget
  have htot : wadd v.m_weight (wsub 0 old) + old = v.m_weight := by
    simp only [wadd, wsub, WMOD] at *
    omega
  have hlt : v.m_matching_rhs_record_ids.indexOf record_id
      < v.m_matching_rhs_record_ids.length := List.indexOf_lt_length.mpr hmem
  refine ⟨{ v with
      m_weight := wadd v.m_weight (wsub 0 old)
      mp_matching_rhs_record_weight := some ws'
      m_matching_rhs_record_ids :=
        v.m_matching_rhs_record_ids.set (v.m_matching_rhs_record_ids.indexOf record_id) (-1) },
    ws', old, ?_, rfl, hlen', ?_, ?_, ?_, rfl, ?_, hnewW, ?_, htot⟩
  · simp only [JefastVertex.delete_rhs_record_weight_with_sum, hinv.present, hadj,
      Option.bind_eq_bind, Option.some_bind, hlt, if_true, Option.pure_def]
  · simp
  · show (v.m_matching_rhs_record_ids.set _ (-1)).getD _ 0 = -1
    rw [List.getD_eq_getElem?_getD, List.getElem?_set_self hlt]
    rfl
  · intro j hj
    show (v.m_matching_rhs_record_ids.set _ (-1)).getD j 0 = _
    rw [List.getD_eq_getElem?_getD, List.getD_eq_getElem?_getD,
      List.getElem?_set_ne (Ne.symm hj)]
  · simp only [JefastVertex.weight_of, hinv.present]
    exact hold
  · intro j hj hji
    simp only [JefastVertex.weight_of, hinv.present]
    exact hothers j hj hji

/-- Records 7, 8, 9 of weights 3, 5, 2: record 8 is deleted. -/
theorem delete_rhs_record_weight_with_sum_spec_witness :
    ∃ v', JefastVertex.delete_rhs_record_weight_with_sum ⟨10, [], [7, 8, 9], some [0, 3, 8]⟩ 8 = some (v', v'.m_weight) ∧
      v'.m_matching_rhs_record_ids.getD 1 0 = -1 ∧ v'.weight_of 1 = some 0 := by
  obtain ⟨v', _, _, h1, _, _, _, h2, _, _, _, h3, _⟩ :=
    delete_rhs_record_weight_with_sum_spec ⟨10, [], [7, 8, 9], some [0, 3, 8]⟩ [0, 3, 8] 8
      ⟨rfl, rfl, by decide, rfl, by decide, by decide⟩ (by decide) (by decide)
  exact ⟨v', h1, h2, h3⟩

/-- Claim C8: a vertex satisfying the invariant still satisfies it after `insert_rhs` and after
`adjust_rhs_weight`, whenever the new total is again a 64-bit weight, and after `delete_rhs` of a
record that occurs; every `delete_rhs` that returns at all returns an invariant vertex. -/
theorem prefix_invariant_preserved (v : JefastVertex) (ws : List Nat)
    (hinv : PrefixInv v ws) (hW : v.m_weight < WMOD) :
    (∀ record_id new_weight, v.m_weight + new_weight < WMOD →
      ∃ v' ws', v.insert_rhs_record_weight_with_sum record_id new_weight
        = some (v', v'.m_weight) ∧ PrefixInv v' ws') ∧
    (∀ record_id new_weight,
      (∀ old, v.weight_of (v.m_matching_rhs_record_ids.indexOf record_id) = some old →
        v.m_weight - old + new_weight < WMOD) →
      ∃ v' ws', v.adjust_rhs_record_weight_with_sum record_id new_weight
        = some (v', v'.m_weight) ∧ PrefixInv v' ws') ∧
    (∀ record_id, record_id ∈ v.m_matching_rhs_record_ids →
      ∃ v' ws', v.delete_rhs_record_weight_with_sum record_id = some (v', v'.m_weight) ∧
        PrefixInv v' ws') ∧
    (∀ record_id v' ret, v.delete_rhs_record_weight_with_sum record_id = some (v', ret) →
      ∃ ws', PrefixInv v' ws') := by
  have hdel : ∀ record_id, record_id ∈ v.m_matching_rhs_record_ids →
      ∃ v' ws', v.delete_rhs_record_weight_with_sum record_id = some (v', v'.m_weight) ∧
        PrefixInv v' ws' := by
    intro record_id hmem
    obtain ⟨v1, ws1, hadj, hinv1, _, hids⟩ := adjust_keeps_inv v ws record_id 0 hinv hW hmem
      (fun old _ => by omega)
    have hlt : v.m_matching_rhs_record_ids.indexOf record_id
        < v1.m_matching_rhs_record_ids.length := by
      rw [hids]; exact List.indexOf_lt_length.mpr hmem
    refine ⟨{ v1 with m_matching_rhs_record_ids :=
        v1.m_matching_rhs_record_ids.set (v.m_matching_rhs_record_ids.indexOf record_id) (-1) },
      ws1, ?_, ⟨hinv1.present, ?_, hinv1.nonempty, hinv1.head_zero, hinv1.sorted,
        hinv1.back_le⟩⟩
    · simp only [JefastVertex.delete_rhs_record_weight_with_sum, hinv.present, hadj,
        Option.bind_eq_bind, Option.some_bind, hlt, if_true, Option.pure_def]
    · simp only [List.length_set]
      exact hinv1.len_eq
  refine ⟨fun record_id new_weight hfit => insert_keeps_inv v ws record_id new_weight hinv hfit,
    ?_, hdel, ?_⟩
  · intro record_id new_weight hfit
    by_cases hmem : record_id ∈ v.m_matching_rhs_record_ids
    · obtain ⟨v', ws', h1, h2, _, _⟩ :=
        adjust_keeps_inv v ws record_id new_weight hinv hW hmem hfit
      exact ⟨v', ws', h1, h2⟩
    · have hnot : ¬ (v.m_matching_rhs_record_ids.indexOf record_id
          < v.m_matching_rhs_record_ids.length) := by
        rw [List.indexOf_lt_length]; exact hmem
      refine ⟨v, ws, ?_, hinv⟩
      simp only [JefastVertex.adjust_rhs_record_weight_with_sum, hnot, if_false]
  · intro record_id v' ret h
    by_cases hmem : record_id ∈ v.m_matching_rhs_record_ids
    · obtain ⟨v1, ws1, h1, h2⟩ := hdel record_id hmem
      rw [h1] at h
      injection h with h
      injection h with h3 h4
      subst h3
      exact ⟨ws1, h2⟩
    · exfalso
      have hnot : ¬ (v.m_matching_rhs_record_ids.indexOf record_id
          < v.m_matching_rhs_record_ids.length) := by
        rw [List.indexOf_lt_length]; exact hmem
      simp only [JefastVertex.delete_rhs_record_weight_with_sum, hinv.present,
        JefastVertex.adjust_rhs_record_weight_with_sum, hnot, if_false,
        Option.bind_eq_bind, Option.some_bind] at h
      exact Option.noConfusion h

/-- Records 7, 8, 9 of weights 3, 5, 2: inserting record 11 with weight 4. -/
theorem prefix_invariant_preserved_witness :
    ∃ v' ws', JefastVertex.insert_rhs_record_weight_with_sum ⟨10, [], [7, 8, 9], some [0, 3, 8]⟩ 11 4 = some (v', v'.m_weight) ∧
      PrefixInv v' ws' :=
  (prefix_invariant_preserved ⟨10, [], [7, 8, 9], some [0, 3, 8]⟩ [0, 3, 8] ⟨rfl, rfl, by decide, rfl, by decide, by decide⟩ (by decide)).1 11 4 (by decide)

/-- Claim C9: `purge_zero_weights` on a vertex with one per-record weight per RHS record leaves
exactly the (record id, weight) pairs of non-zero weight, in their original order; both columns
have the same length afterwards, and the total and the LHS ids are unchanged. -/
theorem purge_zero_weights_spec (v : JefastVertex) (ws : List Nat)
    (hpres : v.mp_matching_rhs_record_weight = some ws)
    (hlen : ws.length = v.m_matching_rhs_record_ids.length) :
    ∃ v' ws', v.purge_zero_weights = some v' ∧
      v'.mp_matching_rhs_record_weight = some ws' ∧
      List.zip v'.m_matching_rhs_record_ids ws'
        = (List.zip v.m_matching_rhs_record_ids ws).filter (fun p => decide (p.2 ≠ 0)) ∧
      v'.m_matching_rhs_record_ids.length = ws'.length ∧
      v'.m_weight = v.m_weight ∧
      v'.m_matching_lhs_record_ids = v.m_matching_lhs_record_ids := by
  have hids : v.m_matching_rhs_record_ids
      = (List.zip v.m_matching_rhs_record_ids ws).map Prod.fst :=
    (List.map_fst_zip _ _ (by omega)).symm
  have hws : v.mp_matching_rhs_record_weight
      = some ((List.zip v.m_matching_rhs_record_ids ws).map Prod.snd) := by
    rw [hpres, List.map_snd_zip _ _ (by omega)]
  refine ⟨_, _, purge_zero_weights_pairs v _ hids hws, rfl, ?_, ?_, rfl, rfl⟩
  · exact zip_map_fst_map_snd _
  · simp

/-- Records 7, 8, 9, 10 with weights 0, 3, 0, 8 keep the pairs (8, 3) and (10, 8). -/
theorem purge_zero_weights_spec_witness :
    ∃ v' ws', JefastVertex.purge_zero_weights ⟨11, [], [7, 8, 9, 10], some [0, 3, 0, 8]⟩ = some v' ∧
      v'.mp_matching_rhs_record_weight = some ws' ∧
      List.zip v'.m_matching_rhs_record_ids ws' = [(8, 3), (10, 8)] := by
  obtain ⟨v', ws', h1, h2, h3, _⟩ :=
    purge_zero_weights_spec ⟨11, [], [7, 8, 9, 10], some [0, 3, 0, 8]⟩ [0, 3, 0, 8] rfl rfl
  exact ⟨v', ws', h1, h2, by rw [h3]; decide⟩

/-- Claim C10: for any `std::sort` meeting the library contract, `sort` on a vertex with one
weight per RHS record succeeds; the (record id, weight) pairs afterwards are a permutation of the
pairs before, the weights are non-increasing, and the total and the LHS ids are unchanged. -/
theorem sort_spec (std_sort : List key_weight_pair → List key_weight_pair)
    (hc : StdSortContract std_sort) (v : JefastVertex) (ws : List Nat)
    (hpres : v.mp_matching_rhs_record_weight = some ws)
    (hlen : ws.length = v.m_matching_rhs_record_ids.length) :
    ∃ v' ws', v.sort std_sort = some v' ∧
      v'.mp_matching_rhs_record_weight = some ws' ∧
      (List.zip v'.m_matching_rhs_record_ids ws').Perm (List.zip v.m_matching_rhs_record_ids ws) ∧
      ws'.Pairwise (· ≥ ·) ∧
      v'.m_weight = v.m_weight ∧
      v'.m_matching_lhs_record_ids = v.m_matching_lhs_record_ids := by
  have hids : v.m_matching_rhs_record_ids
      = (List.zip v.m_matching_rhs_record_ids ws).map Prod.fst :=
    (List.map_fst_zip _ _ (by omega)).symm
  have hws : v.mp_matching_rhs_record_weight
      = some ((List.zip v.m_matching_rhs_record_ids ws).map Prod.snd) := by
    rw [hpres, List.map_snd_zip _ _ (by omega)]
  obtain ⟨K, hK, hsorted, hsort⟩ := sort_pairs std_sort hc v _ hids hws
  refine ⟨_, _, hsort, rfl, ?_, hsorted, rfl, rfl⟩
  simp only
  rw [List.zip_map']
  simpa using hK

/-- Records 7, 8, 9 with weights 2, 5, 3 under insertion sort. -/
theorem sort_spec_witness :
    ∃ v' ws', JefastVertex.sort insertion_sort_desc ⟨10, [], [7, 8, 9], some [2, 5, 3]⟩ = some v' ∧
      v'.mp_matching_rhs_record_weight = some ws' ∧ ws'.Pairwise (· ≥ ·) := by
  obtain ⟨v', ws', h1, h2, _, h4, _⟩ :=
    sort_spec insertion_sort_desc insertion_sort_desc_contract
      ⟨10, [], [7, 8, 9], some [2, 5, 3]⟩ [2, 5, 3] rfl rfl
  exact ⟨v', ws', h1, h2, h4⟩

/-- Claim C11 at its failing input: a fresh default-weight vertex receives record 7 with weight 1.
The code returns the stored `m_weight`, still 0, while `getWeight` reports 1 afterwards. -/
theorem insert_rhs_default_mode_returns_stale_weight :
    ∃ v', JefastVertex.insert_rhs_record_weight_with_sum (JefastVertex.ofUseDefaultWeight true) 7 1
        = some (v', 0) ∧
      v'.m_matching_rhs_record_ids = [7] ∧
      v'.getWeight = 1 :=
  ⟨⟨0, [], [7], none⟩, by decide, rfl, by decide⟩

/-- Claim C12: on a default-weight vertex, deleting a record id that occurs succeeds, removes its
first occurrence (`pre` holds no such id) and keeps the other ids in order; `getWeight` drops by
exactly 1 and stays equal to the number of RHS records; the LHS ids are unchanged. -/
theorem delete_rhs_default_weight (v : JefastVertex) (record_id : Int)
    (hdef : v.mp_matching_rhs_record_weight = none)
    (hmem : record_id ∈ v.m_matching_rhs_record_ids) :
    ∃ v' ret pre post, v.delete_rhs_record_weight_with_sum record_id = some (v', ret) ∧
      v.m_matching_rhs_record_ids = pre ++ record_id :: post ∧ record_id ∉ pre ∧
      v'.m_matching_rhs_record_ids = pre ++ post ∧
      v'.mp_matching_rhs_record_weight = none ∧
      v'.m_matching_lhs_record_ids = v.m_matching_lhs_record_ids ∧
      v'.getWeight + 1 = v.getWeight ∧
      v'.getWeight = v'.m_matching_rhs_record_ids.length := by
  obtain ⟨pre, post, h1, h2, h3, h4⟩ := split_first_occurrence record_id _ hmem
  have hlt : v.m_matching_rhs_record_ids.indexOf record_id < v.m_matching_rhs_record_ids.length :=
    List.indexOf_lt_length.mpr hmem
  refine ⟨{ v with
      m_weight := wsub v.m_weight 1
      m_matching_rhs_record_ids :=
        v.m_matching_rhs_record_ids.eraseIdx (v.m_matching_rhs_record_ids.indexOf record_id) },
    wsub v.m_weight 1, pre, post, ?_, h1, h2, h4, hdef, rfl, ?_, ?_⟩
  · simp only [JefastVertex.delete_rhs_record_weight_with_sum, hdef, hlt, if_true]
  · simp only [JefastVertex.getWeight, hdef, JefastVertex.get_RHS_outdegree, h4]
    rw [h1]
    simp only [List.length_append, List.length_cons]
    omega
  · simp only [JefastVertex.getWeight, hdef, JefastVertex.get_RHS_outdegree]

/-- Records 7, 8, 7 in default-weight mode: deleting 7 leaves a weight of 2. -/
theorem delete_rhs_default_weight_witness :
    ∃ v' ret, JefastVertex.delete_rhs_record_weight_with_sum ⟨0, [], [7, 8, 7], none⟩ 7
        = some (v', ret) ∧ v'.getWeight + 1 = 3 := by
  obtain ⟨v', ret, _, _, h1, _, _, _, _, _, h2, _⟩ :=
    delete_rhs_default_weight ⟨0, [], [7, 8, 7], none⟩ 7 rfl (by decide)
  exact ⟨v', ret, h1, h2⟩

/-- Claim C13: on a default-weight vertex, `get_records r` for `r` below the number of RHS
records returns the record at position `r`, reports weight 1 and leaves the residual 0. -/
theorem get_records_default_weight (v : JefastVertex) (r : Nat)
    (hdef : v.mp_matching_rhs_record_weight = none)
    (hr : r < v.m_matching_rhs_record_ids.length) :
    v.get_records r = some
      { inout_weight_condition := 0
        out_record_id := v.m_matching_rhs_record_ids.getD r 0
        record_weight := 1
        index := r } := by
  have hid : v.m_matching_rhs_record_ids[r]? = some (v.m_matching_rhs_record_ids.getD r 0) := by
    rw [List.getD_eq_getElem _ _ hr, List.getElem?_eq_getElem hr]
  have h0 : wsub r r = 0 := by
    simp only [wsub, WMOD]
    omega
  simp only [JefastVertex.get_records, hdef, hid, Option.bind_eq_bind, Option.some_bind,
    Option.pure_def, h0]

/-- Records 7, 8, 9 in default-weight mode at rank 1. -/
theorem get_records_default_weight_witness :
    JefastVertex.get_records ⟨0, [], [7, 8, 9], none⟩ 1 = some ⟨0, 8, 1, 1⟩ :=
  get_records_default_weight ⟨0, [], [7, 8, 9], none⟩ 1 rfl (by decide)

/-- Claim C14 at its failing inputs: deleting the absent id 9 from the RHS bucket `[7]` erases
(default-weight mode) or writes (weighted mode) through `end()`, which has no defined result; the
LHS delete of an absent id, guarded by `itr != end()`, leaves the vertex as it is. -/
theorem delete_rhs_missing_record_undefined :
    JefastVertex.delete_rhs_record_weight_with_sum ⟨0, [], [7], none⟩ 9 = none ∧
    JefastVertex.delete_rhs_record_weight_with_sum ⟨5, [], [7], some [0]⟩ 9 = none ∧
    JefastVertex.delete_lhs_record_ids ⟨5, [7], [7], some [0]⟩ 9 = ⟨5, [7], [7], some [0]⟩ :=
  ⟨by decide, by decide, by decide⟩

/-- Claim C15: adjusting a record id that does not occur among the RHS ids returns the vertex
unchanged together with its unchanged total. -/
theorem adjust_missing_record (v : JefastVertex) (record_id : Int) (new_weight : Nat)
    (hmem : record_id ∉ v.m_matching_rhs_record_ids) :
    v.adjust_rhs_record_weight_with_sum record_id new_weight = some (v, v.m_weight) := by
  simp only [JefastVertex.adjust_rhs_record_weight_with_sum,
    indexOf_not_lt_of_not_mem _ _ hmem, if_false]

/-- Records 7, 8, 9: the id 5 is absent. -/
theorem adjust_missing_record_witness :
    JefastVertex.adjust_rhs_record_weight_with_sum ⟨10, [], [7, 8, 9], some [0, 3, 8]⟩ 5 4 = some (⟨10, [], [7, 8, 9], some [0, 3, 8]⟩, 10) :=
  adjust_missing_record ⟨10, [], [7, 8, 9], some [0, 3, 8]⟩ 5 4 (by decide)

/-- Claim C16: `insert_lhs_record_ids` appends the id, so inserting an id twice leaves two more
entries and an outdegree larger by 2; `delete_lhs_record_ids` removes exactly the first occurrence
of an id that occurs (outdegree drops by 1, the other entries keep their order) and leaves the
vertex unchanged when the id is absent; neither touches the RHS ids, the weights or the total. -/
theorem lhs_bucket_insert_delete (v : JefastVertex) (record_id : Int) :
    (v.insert_lhs_record_ids record_id).m_matching_lhs_record_ids
      = v.m_matching_lhs_record_ids ++ [record_id] ∧
    ((v.insert_lhs_record_ids record_id).insert_lhs_record_ids record_id).m_matching_lhs_record_ids
      = v.m_matching_lhs_record_ids ++ [record_id, record_id] ∧
    ((v.insert_lhs_record_ids record_id).insert_lhs_record_ids record_id).get_LHS_outdegree
      = v.get_LHS_outdegree + 2 ∧
    (record_id ∈ v.m_matching_lhs_record_ids →
      ∃ pre post, v.m_matching_lhs_record_ids = pre ++ record_id :: post ∧ record_id ∉ pre ∧
        (v.delete_lhs_record_ids record_id).m_matching_lhs_record_ids = pre ++ post ∧
        (v.delete_lhs_record_ids record_id).get_LHS_outdegree + 1 = v.get_LHS_outdegree) ∧
    (record_id ∉ v.m_matching_lhs_record_ids → v.delete_lhs_record_ids record_id = v) ∧
    (v.insert_lhs_record_ids record_id).m_matching_rhs_record_ids = v.m_matching_rhs_record_ids ∧
    (v.insert_lhs_record_ids record_id).mp_matching_rhs_record_weight
      = v.mp_matching_rhs_record_weight ∧
    (v.insert_lhs_record_ids record_id).m_weight = v.m_weight ∧
    (v.delete_lhs_record_ids record_id).m_matching_rhs_record_ids = v.m_matching_rhs_record_ids ∧
    (v.delete_lhs_record_ids record_id).mp_matching_rhs_record_weight
      = v.mp_matching_rhs_record_weight ∧
    (v.delete_lhs_record_ids record_id).m_weight = v.m_weight := by
  refine ⟨rfl, ?_, ?_, ?_, ?_, rfl, rfl, rfl, ?_, ?_, ?_⟩
  · simp [JefastVertex.insert_lhs_record_ids]
  · simp [JefastVertex.insert_lhs_record_ids, JefastVertex.get_LHS_outdegree]
  · intro hmem
    obtain ⟨pre, post, h1, h2, h3, h4⟩ := split_first_occurrence record_id _ hmem
    have hlt := List.indexOf_lt_length.mpr hmem
    refine ⟨pre, post, h1, h2, ?_, ?_⟩
    · simp only [JefastVertex.delete_lhs_record_ids, hlt, if_true, h4]
    · simp only [JefastVertex.delete_lhs_record_ids, hlt, if_true, h4,
        JefastVertex.get_LHS_outdegree]
      rw [h1]
      simp only [List.length_append, List.length_cons]
      omega
  · intro hmem
    simp only [JefastVertex.delete_lhs_record_ids, indexOf_not_lt_of_not_mem _ _ hmem, if_false]
  · unfold JefastVertex.delete_lhs_record_ids
    dsimp only
    split <;> rfl
  · unfold JefastVertex.delete_lhs_record_ids
    dsimp only
    split <;> rfl
  · unfold JefastVertex.delete_lhs_record_ids
    dsimp only
    split <;> rfl

/-- LHS bucket 1, 2, 1: deleting 1 leaves two entries. -/
theorem lhs_bucket_insert_delete_witness :
    (JefastVertex.delete_lhs_record_ids ⟨0, [1, 2, 1], [], some []⟩ 1).get_LHS_outdegree + 1
      = 3 := by
  obtain ⟨_, _, _, _, _, h⟩ :=
    (lhs_bucket_insert_delete ⟨0, [1, 2, 1], [], some []⟩ 1).2.2.2.1 (by decide)
  exact h

/-- Claim C18: after any sequence of `insert_rhs_record_ids`, `adjust_rhs_record_weight` and RHS
`setWeight` calls on an empty weighted vertex, `getWeight` is the sum of the stored weights in the
64-bit weight type (the exact sum whenever it fits) and no weight is stored beyond the record ids;
`adjust_rhs_record_weight` always returns; `setWeight w` at a valid position returns, stores `w`
there (read back by the enumerator's `getWeight`), leaves every other stored weight, the ids and
the LHS ids alone, and moves the total by `w` minus the old stored weight. -/
theorem total_tracks_assigned_weights :
    (∀ calls v, run_calls calls JefastVertex.empty = some v →
      ∃ ws, v.mp_matching_rhs_record_weight = some ws ∧
        v.getWeight = ws.sum % WMOD ∧
        (ws.sum < WMOD → v.getWeight = ws.sum) ∧
        ws.length ≤ v.m_matching_rhs_record_ids.length) ∧
    (∀ calls v record_id weight, run_calls calls JefastVertex.empty = some v →
      ∃ v', v.adjust_rhs_record_weight record_id weight = some v') ∧
    (∀ calls v (e : JefastVertexEnumeratorRHS) w,
      run_calls calls JefastVertex.empty = some v →
      int_to_size_t e.m_idx < v.m_matching_rhs_record_ids.length →
      ∃ v' ws ws', v.mp_matching_rhs_record_weight = some ws ∧
        e.setWeight v w = some v' ∧
        v'.mp_matching_rhs_record_weight = some ws' ∧
        e.getWeight v' = some w ∧
        (∀ j, j ≠ int_to_size_t e.m_idx → ws'.getD j 0 = ws.getD j 0) ∧
        v'.m_matching_rhs_record_ids = v.m_matching_rhs_record_ids ∧
        v'.m_matching_lhs_record_ids = v.m_matching_lhs_record_ids ∧
        v'.m_weight = wadd v.m_weight (wsub w (ws.getD (int_to_size_t e.m_idx) 0)) ∧
        (ws.getD (int_to_size_t e.m_idx) 0 ≤ v.m_weight →
          v.m_weight - ws.getD (int_to_size_t e.m_idx) 0 + w < WMOD →
          v'.m_weight = v.m_weight - ws.getD (int_to_size_t e.m_idx) 0 + w)) := by
  refine ⟨?_, ?_, ?_⟩
  · intro calls v hrun
    obtain ⟨ws, hpres, hm, hlen⟩ := run_calls_tracks calls _ v empty_tracks hrun
    refine ⟨ws, hpres, ?_, ?_, hlen⟩
    · simp only [JefastVertex.getWeight, hpres]
      exact hm
    · intro hfit
      simp only [JefastVertex.getWeight, hpres]
      rw [hm, Nat.mod_eq_of_lt hfit]
  · intro calls v record_id weight hrun
    obtain ⟨ws, hpres, hm, hlen⟩ := run_calls_tracks calls _ v empty_tracks hrun
    by_cases hi : v.m_matching_rhs_record_ids.indexOf record_id
        < v.m_matching_rhs_record_ids.length
    · obtain ⟨h1, _⟩ := assign_weight_tracks v ws _ weight hm hlen hi
      simp only [JefastVertex.adjust_rhs_record_weight, hpres, hi, if_true, h1,
        Option.bind_eq_bind, Option.some_bind, Option.pure_def]
      exact ⟨_, rfl⟩
    · simp only [JefastVertex.adjust_rhs_record_weight, hpres, hi, if_false]
      exact ⟨_, rfl⟩
  · intro calls v e w hrun hi
    obtain ⟨ws, hpres, hm, hlen⟩ := run_calls_tracks calls _ v empty_tracks hrun
    obtain ⟨h1, _⟩ := assign_weight_tracks v ws _ w hm hlen hi
    have hl : (resize ws v.get_RHS_outdegree 0).length = v.m_matching_rhs_record_ids.length :=
      resize_length_of_le ws _ hlen
    refine ⟨{ v with
        m_weight := wadd v.m_weight (wsub w (ws.getD (int_to_size_t e.m_idx) 0))
        mp_matching_rhs_record_weight :=
          some ((resize ws v.get_RHS_outdegree 0).set (int_to_size_t e.m_idx) w) },
      ws, (resize ws v.get_RHS_outdegree 0).set (int_to_size_t e.m_idx) w,
      hpres, ?_, rfl, ?_, ?_, rfl, rfl, rfl, ?_⟩
    · simp only [JefastVertexEnumeratorRHS.setWeight, hpres, h1, Option.bind_eq_bind,
        Option.some_bind, Option.pure_def]
    · simp only [JefastVertexEnumeratorRHS.getWeight]
      exact List.getElem?_set_self (by omega)
    · intro j hj
      rw [getD_set_ne _ _ _ _ hj]
      exact resize_getD_of_le ws _ hlen j
    · intro hle hfit
      show wadd v.m_weight (wsub w (ws.getD (int_to_size_t e.m_idx) 0)) = _
      simp only [wadd, wsub, WMOD] at *
      omega

/-- Two inserts, a `setWeight`, an adjust and a third insert. -/
theorem total_tracks_assigned_weights_witness :
    ∃ ws, (⟨4, [], [7, 8, 9], some [3, 1]⟩ : JefastVertex).mp_matching_rhs_record_weight = some ws ∧
      ws.length ≤ 3 := by
  obtain ⟨ws, h1, _, _, h2⟩ := total_tracks_assigned_weights.1
    [.insert_rhs_record_ids 7, .insert_rhs_record_ids 8, .setWeight ⟨0⟩ 3,
      .adjust_rhs_record_weight 8 1, .insert_rhs_record_ids 9]
    ⟨4, [], [7, 8, 9], some [3, 1]⟩ (by decide)
  exact ⟨ws, h1, h2⟩

/-- Claim C19, amended: for any `std::sort` meeting the library contract, `sort` keeps for every
weight the records of that weight (as a permutation of the pairs before), and of two positions
holding different weights the earlier one holds the larger weight; nothing is said about the
order of records of equal weight. -/
theorem sort_keeps_weight_classes (std_sort : List key_weight_pair → List key_weight_pair)
    (hc : StdSortContract std_sort) (v : JefastVertex) (ws : List Nat)
    (hpres : v.mp_matching_rhs_record_weight = some ws)
    (hlen : ws.length = v.m_matching_rhs_record_ids.length) :
    ∃ v' ws', v.sort std_sort = some v' ∧
      v'.mp_matching_rhs_record_weight = some ws' ∧
      (∀ w, ((List.zip v'.m_matching_rhs_record_ids ws').filter (fun p => decide (p.2 = w))).Perm
        ((List.zip v.m_matching_rhs_record_ids ws).filter (fun p => decide (p.2 = w)))) ∧
      (∀ i j, i < j → j < ws'.length → ws'.getD i 0 ≠ ws'.getD j 0 →
        ws'.getD j 0 < ws'.getD i 0) := by
  have hids : v.m_matching_rhs_record_ids
      = (List.zip v.m_matching_rhs_record_ids ws).map Prod.fst :=
    (List.map_fst_zip _ _ (by omega)).symm
  have hws : v.mp_matching_rhs_record_weight
      = some ((List.zip v.m_matching_rhs_record_ids ws).map Prod.snd) := by
    rw [hpres, List.map_snd_zip _ _ (by omega)]
  obtain ⟨K, hK, hsorted, hsort⟩ := sort_pairs std_sort hc v _ hids hws
  refine ⟨_, K.map Prod.snd, hsort, rfl, ?_, ?_⟩
  · intro w
    simp only
    rw [zip_map_fst_map_snd]
    exact hK.filter _
  · intro i j hij hj hne
    have hi : i < (K.map Prod.snd).length := by omega
    have h := (List.pairwise_iff_getElem.mp hsorted) i j hi hj hij
    rw [List.getD_eq_getElem _ _ hi, List.getD_eq_getElem _ _ hj] at hne ⊢
    omega

/-- Records 7, 8, 9 with weights 2, 5, 2 under insertion sort. -/
theorem sort_keeps_weight_classes_witness :
    ∃ v' ws', JefastVertex.sort insertion_sort_desc ⟨9, [], [7, 8, 9], some [2, 5, 2]⟩ = some v' ∧
      v'.mp_matching_rhs_record_weight = some ws' ∧
      ((List.zip v'.m_matching_rhs_record_ids ws').filter (fun p => decide (p.2 = 2))).Perm
        [(7, 2), (9, 2)] := by
  obtain ⟨v', ws', h1, h2, h3, _⟩ :=
    sort_keeps_weight_classes insertion_sort_desc insertion_sort_desc_contract
      ⟨9, [], [7, 8, 9], some [2, 5, 2]⟩ [2, 5, 2] rfl rfl
  exact ⟨v', ws', h1, h2, h3 2⟩

/-- Claim C19 fails: with the `std::sort` of libstdc++, `sort` on the seventeen records
0, 1, ..., 16 of equal weight 1 returns them in the order 8, 16, 15, ..., 9, 0, 7, 6, ..., 1:
record 0 stood before record 8 and stands after it, and 1 stood before 2 and stands after it. -/
theorem sort_reorders_equal_weights_counterexample :
    JefastVertex.sort std_sort_libstdcxx
        ⟨17, [], [0, 1, 2, 3, 4, 5, 6, 7, 8, 9, 10, 11, 12, 13, 14, 15, 16],
          some [1, 1, 1, 1, 1, 1, 1, 1, 1, 1, 1, 1, 1, 1, 1, 1, 1]⟩
      = some ⟨17, [], [8, 16, 15, 14, 13, 12, 11, 10, 9, 0, 7, 6, 5, 4, 3, 2, 1],
          some [1, 1, 1, 1, 1, 1, 1, 1, 1, 1, 1, 1, 1, 1, 1, 1, 1]⟩ := by
  decide

/-- Claim C20, amended: for an RHS or LHS enumerator at any `int` position `m` and any `size_t`
step `s`, `Step(s)` returns true exactly when the position it leaves is the index of a record of
the bucket; whenever `m + s` does not exceed the largest `int`, that position is `m + s`, and for
`s = k + 1` the call leaves and returns what the last of `k + 1` successive `Step()` calls does. -/
theorem Step_s_lands_on_record (v : JefastVertex) (m : Int) (s : Nat)
    (hlo : -2147483648 ≤ m) (hhi : m ≤ INT_MAX) (hs : s < 18446744073709551616)
    (hR : v.m_matching_rhs_record_ids.length < 9223372036854775808)
    (hL : v.m_matching_lhs_record_ids.length < 9223372036854775808) :
    (((JefastVertexEnumeratorRHS.mk m).Step_s v s).1 = true ↔
      (0 ≤ ((JefastVertexEnumeratorRHS.mk m).Step_s v s).2.m_idx ∧
       ((JefastVertexEnumeratorRHS.mk m).Step_s v s).2.m_idx
         < v.m_matching_rhs_record_ids.length)) ∧
    (((JefastVertexEnumeratorLHS.mk m).Step_s v s).1 = true ↔
      (0 ≤ ((JefastVertexEnumeratorLHS.mk m).Step_s v s).2.m_idx ∧
       ((JefastVertexEnumeratorLHS.mk m).Step_s v s).2.m_idx
         < v.m_matching_lhs_record_ids.length)) ∧
    (m + s ≤ INT_MAX →
      ((JefastVertexEnumeratorRHS.mk m).Step_s v s).2.m_idx = m + s ∧
      ((JefastVertexEnumeratorLHS.mk m).Step_s v s).2.m_idx = m + s ∧
      (∀ k, s = k + 1 →
        (JefastVertexEnumeratorRHS.mk m).Step_repeat v k
          = some ((JefastVertexEnumeratorRHS.mk m).Step_s v s) ∧
        (JefastVertexEnumeratorLHS.mk m).Step_repeat v k
          = some ((JefastVertexEnumeratorLHS.mk m).Step_s v s))) := by
  refine ⟨(cursor_Step_s_spec _ m s hlo hhi hs hR).1, (cursor_Step_s_spec _ m s hlo hhi hs hL).1,
    ?_⟩
  intro hfit
  refine ⟨(cursor_Step_s_spec _ m s hlo hhi hs hR).2 hfit,
    (cursor_Step_s_spec _ m s hlo hhi hs hL).2 hfit, ?_⟩
  intro k hk
  subst hk
  constructor
  · simp only [JefastVertexEnumeratorRHS.Step_repeat, JefastVertexEnumeratorRHS.Step_s,
      cursor_Step_s_eq_repeat _ m k hlo hhi hR hfit, Option.map_some']
  · simp only [JefastVertexEnumeratorLHS.Step_repeat, JefastVertexEnumeratorLHS.Step_s,
      cursor_Step_s_eq_repeat _ m k hlo hhi hL hfit, Option.map_some']

/-- A fresh enumerator over the RHS bucket 7, 8, 9 after `Step(2)`. -/
theorem Step_s_lands_on_record_witness :
    ((JefastVertexEnumeratorRHS.mk (-1)).Step_s ⟨0, [1, 2], [7, 8, 9], some []⟩ 2).2.m_idx
      = -1 + ((2 : Nat) : Int) :=
  ((Step_s_lands_on_record ⟨0, [1, 2], [7, 8, 9], some []⟩ (-1) 2 (by decide) (by decide)
    (by decide) (by decide) (by decide)).2.2 (by decide)).1

/-- Claim C20 fails: at position 3 of a bucket of ten records, `Step(4294967296)` leaves the
enumerator at position 3 and returns true, for the RHS and for the LHS enumerator alike; the
position has not advanced by `s`, and `3 + 4294967296` is not the index of a record. -/
theorem Step_s_wraps_counterexample :
    (JefastVertexEnumeratorRHS.mk 3).Step_s ⟨0, [], [0, 1, 2, 3, 4, 5, 6, 7, 8, 9], some []⟩
        4294967296 = (true, ⟨3⟩) ∧
    (JefastVertexEnumeratorLHS.mk 3).Step_s ⟨0, [0, 1, 2, 3, 4, 5, 6, 7, 8, 9], [], some []⟩
        4294967296 = (true, ⟨3⟩) ∧
    ((JefastVertexEnumeratorRHS.mk 3).Step_s ⟨0, [], [0, 1, 2, 3, 4, 5, 6, 7, 8, 9], some []⟩
        4294967296).2.m_idx ≠ 3 + 4294967296 ∧
    ¬ ((3 : Int) + 4294967296
        < (⟨0, [], [0, 1, 2, 3, 4, 5, 6, 7, 8, 9], some []⟩ :
            JefastVertex).m_matching_rhs_record_ids.length) := by
  decide

/-- Claim C21: on an invariant vertex whose RHS ids are pairwise distinct and non-negative,
deleting a record id that occurs succeeds, and afterwards `get_records r` is defined for every `r`
below the new total and returns an id that is neither the tombstone `-1` nor the deleted id. -/
theorem deleted_record_never_sampled (v : JefastVertex) (ws : List Nat) (record_id : Int)
    (hinv : PrefixInv v ws) (hW : v.m_weight < WMOD)
    (hmem : record_id ∈ v.m_matching_rhs_record_ids)
    (hdistinct : v.m_matching_rhs_record_ids.Nodup)
    (hnonneg : ∀ x ∈ v.m_matching_rhs_record_ids, 0 ≤ x) :
    ∃ v' ret, v.delete_rhs_record_weight_with_sum record_id = some (v', ret) ∧
      ∀ r, r < v'.m_weight →
        ∃ res, v'.get_records r = some res ∧
          res.out_record_id ≠ -1 ∧ res.out_record_id ≠ record_id := by
  obtain ⟨v', ws', hdel, hinv', hW', hids', hzero⟩ :=
    delete_present_inv v ws record_id hinv hW hmem
  refine ⟨v', v'.m_weight, hdel, ?_⟩
  intro r hr
  obtain ⟨k, hk, hle, hgt, hget, hlt⟩ := get_records_pick v' ws' r hinv' hW' hr
  have hi : v.m_matching_rhs_record_ids.indexOf record_id < ws'.length := by
    rw [hinv'.len_eq, hids', List.length_set]; exact List.indexOf_lt_length.mpr hmem
  obtain ⟨old, hold, _, hval⟩ := hinv'.record_weight_at_eq hW' _ hi
  rw [hzero] at hold
  injection hold with hold
  have hki : k ≠ v.m_matching_rhs_record_ids.indexOf record_id := by
    intro hc
    rw [hc] at hlt
    rw [← hval, ← hold] at hlt
    omega
  have hkl : k < v.m_matching_rhs_record_ids.length := by
    have := hinv'.len_eq
    rw [hids', List.length_set] at this
    omega
  have hout : v'.m_matching_rhs_record_ids.getD k 0 = v.m_matching_rhs_record_ids[k] := by
    rw [hids', List.getD_eq_getElem?_getD, List.getElem?_set_ne (Ne.symm hki),
      List.getElem?_eq_getElem hkl]
    rfl
  refine ⟨_, hget, ?_, ?_⟩
  · show v'.m_matching_rhs_record_ids.getD k 0 ≠ -1
    rw [hout]
    have := hnonneg _ (List.getElem_mem hkl)
    omega
  · show v'.m_matching_rhs_record_ids.getD k 0 ≠ record_id
    rw [hout]
    intro hc
    have h1 := List.indexOf_getElem hdistinct k hkl
    rw [hc] at h1
    exact hki h1.symm

/-- Records 7, 8, 9 of weights 3, 5, 2: after deleting 8, rank 4 is not answered by 8. -/
theorem deleted_record_never_sampled_witness :
    ∃ v' ret, JefastVertex.delete_rhs_record_weight_with_sum ⟨10, [], [7, 8, 9], some [0, 3, 8]⟩ 8 = some (v', ret) ∧
      ∃ res, v'.get_records 4 = some res ∧ res.out_record_id ≠ -1 ∧ res.out_record_id ≠ 8 := by
  obtain ⟨v', ret, h1, h2⟩ := deleted_record_never_sampled ⟨10, [], [7, 8, 9], some [0, 3, 8]⟩ [0, 3, 8] 8
    ⟨rfl, rfl, by decide, rfl, by decide, by decide⟩ (by decide) (by decide) (by decide) (by decide)
  have hc : JefastVertex.delete_rhs_record_weight_with_sum ⟨10, [], [7, 8, 9], some [0, 3, 8]⟩ 8
      = some (⟨5, [], [7, -1, 9], some [0, 3, 3]⟩, 5) := by decide
  rw [hc] at h1
  injection h1 with h1
  injection h1 with hv hr
  subst hv
  exact ⟨_, _, hc, h2 4 (by decide)⟩

end SampleJoin
